import Mathlib

/-!
Verification of the knowledge-graph builder `services/kg_builder.py` of the
NASA bioscience repository.  The Python module is shallowly embedded below:
pure helper functions become Lean functions, the mutable build state
(`node_index`, `nodes`, `edges`) becomes an explicit state record threaded
through the per-document processing, Python sets become lists that are
deduplicated and sorted exactly where the source calls `sorted(...)` on a
set, and the optional spaCy model becomes an uninterpreted
`Option (String → List Ent)` parameter (only the bucketing rules applied to
the model's entities are code of the repository and are embedded).
-/

namespace KG

/-- Whitespace as recognised by Python's `str.strip` and `\s` on ASCII text. -/
def pyIsSpace (c : Char) : Bool :=
  c = ' ' || c = '\t' || c = '\n' || c = '\r' || c = '\x0b' || c = '\x0c'

/-- Python `str.strip()` on a list of characters. -/
def pyStrip (l : List Char) : List Char :=
  ((l.dropWhile pyIsSpace).reverse.dropWhile pyIsSpace).reverse

/-- Replace every maximal run of whitespace by a single space, as
`re.sub(r"\s+", " ", ...)` does. -/
def collapseWs : List Char → List Char
  | [] => []
  | [c] => [if pyIsSpace c then ' ' else c]
  | c :: d :: rest =>
    if pyIsSpace c && pyIsSpace d then collapseWs (d :: rest)
    else (if pyIsSpace c then ' ' else c) :: collapseWs (d :: rest)

/-- Embeds `normalize_label`: strip, collapse internal whitespace, cap at 300 chars. -/
def normalizeLabel (s : String) : String :=
  String.mk ((collapseWs (pyStrip s.data)).take 300)

/-- Python `str.lower()` (character-wise, enough for the ASCII data used here). -/
def lowerStr (s : String) : String := String.mk (s.data.map Char.toLower)

/-- Python `str.upper()` (character-wise). -/
def upperStr (s : String) : String := String.mk (s.data.map Char.toUpper)

/-- Substring containment on character lists (Python's `pat in hay`). -/
def occursIn (pat : List Char) : List Char → Bool
  | [] => pat.isEmpty
  | c :: rest => List.isPrefixOf pat (c :: rest) || occursIn pat rest

/-- Python `pat in hay` for strings. -/
def containsSub (hay pat : String) : Bool := occursIn pat.data hay.data

/-- Decimal digit characters of `n`, most significant first (`f + 1` is
enough fuel whenever `n < f + 1`). -/
def natReprAux : Nat → Nat → List Char
  | 0, _ => []
  | f + 1, n =>
    if n = 0 then [] else natReprAux f (n / 10) ++ [Nat.digitChar (n % 10)]

/-- Decimal rendering of a natural number, as Python's `f"...{n}"` produces. -/
def natRepr (n : Nat) : String :=
  if n = 0 then "0" else String.mk (natReprAux (n + 1) n)

/-- Node-id type slug: `n_type.lower().replace(' ', '_')`. -/
def typeSlug (t : String) : String :=
  String.mk (t.data.map (fun c => if c.toLower = ' ' then '_' else c.toLower))

def BIO_SYSTEM_TERMS : List String :=
  ["human", "astronaut", "crew", "mouse", "mice", "rodent", "rat", "rats",
   "plant", "arabidopsis", "seedling", "yeast", "drosophila", "zebrafish",
   "cell", "cells", "endothelial", "osteoblast", "osteoclast", "tissue"]

def EFFECT_TERMS : List String :=
  ["bone density", "bone loss", "muscle atrophy", "immune response",
   "gene expression", "oxidative stress", "radiation damage", "microgravity adaptation",
   "growth", "cell proliferation", "apoptosis", "inflammation", "tumor", "DNA damage"]

def EXPERIMENT_TERMS : List String :=
  ["experiment", "study", "mission", "flight", "spaceflight", "ISS", "Shuttle",
   "ground control", "exposure", "radiation", "microgravity"]

def PROJECT_TERMS : List String :=
  ["project", "grant", "award", "BPS", "HRP", "Task Book", "NASA Task Book"]

/-- The four candidate sets of `extract_candidates` / `extract_with_nlp`.
Python sets are represented as lists; deduplication happens where the source
iterates `sorted(<set>)` (see `sortedSet`). -/
structure Buckets where
  experiment : List String
  project : List String
  bioSystem : List String
  effect : List String
  deriving DecidableEq, Repr

def emptyBuckets : Buckets := ⟨[], [], [], []⟩

/-- Embeds `extract_candidates`: heuristic term-dictionary matching.  Note that the
Biological System and Effect dictionaries are matched verbatim (`term in
text_low`) while Experiment and Project terms are lower-cased first
(`term.lower() in text_low`), exactly as in the source. -/
def extractCandidates (text : String) : Buckets :=
  let textLow := lowerStr text
  { bioSystem := BIO_SYSTEM_TERMS.filter (fun t => containsSub textLow t)
  , effect := EFFECT_TERMS.filter (fun t => containsSub textLow t)
  , experiment := EXPERIMENT_TERMS.filter (fun t => containsSub textLow (lowerStr t))
  , project := PROJECT_TERMS.filter (fun t => containsSub textLow (lowerStr t)) }

/-- A named entity as returned by the (external) spaCy model: `ent.label_`
and `ent.text`.  The model itself is not code of this repository; only the
bucketing rules applied to its entities are embedded. -/
structure Ent where
  label : String
  text : String
  deriving DecidableEq, Repr

def addExperiment (b : Buckets) (v : String) : Buckets := { b with experiment := b.experiment ++ [v] }

def addProject (b : Buckets) (v : String) : Buckets := { b with project := b.project ++ [v] }

def addBioSystem (b : Buckets) (v : String) : Buckets := { b with bioSystem := b.bioSystem ++ [v] }

def addEffect (b : Buckets) (v : String) : Buckets := { b with effect := b.effect ++ [v] }

/-- Rule guarding the Project bucket in `extract_with_nlp`. -/
def projRule (label val : String) : Bool :=
  (label = "ORG" || label = "FAC") &&
    PROJECT_TERMS.any (fun t => containsSub (lowerStr val) (lowerStr t))

/-- Rule guarding the Experiment bucket in `extract_with_nlp` (note the
inline lower-case term list of the source, not `EXPERIMENT_TERMS`). -/
def expRule (label val : String) : Bool :=
  (label = "PERSON" || label = "ORG" || label = "PRODUCT") &&
    ["experiment", "study", "mission", "flight", "spaceflight", "iss"].any
      (fun t => containsSub (lowerStr val) t)

/-- Rule guarding the Biological System bucket in `extract_with_nlp`. -/
def bioRule (label val : String) : Bool :=
  (label = "NORP" || label = "ORG" || label = "GPE" || label = "LOC") &&
    BIO_SYSTEM_TERMS.any (fun t => containsSub (lowerStr val) t)

/-- Rule guarding the Effect bucket in `extract_with_nlp` (the terms are
matched verbatim against the lowered entity text, as in the source). -/
def effRule (label val : String) : Bool :=
  (label = "EVENT" || label = "PHENOMENON" || label = "DISEASE" || label = "SYMPTOM") ||
    EFFECT_TERMS.any (fun t => containsSub (lowerStr val) t)

/-- One iteration of the entity loop of `extract_with_nlp`: the four mapping
rules tried in order on an `if/elif` chain, first match wins. -/
def bucketEnt (b : Buckets) (e : Ent) : Buckets :=
  let label := upperStr e.label
  let val := normalizeLabel e.text
  if projRule label val then addProject b val
  else if expRule label val then addExperiment b val
  else if bioRule label val then addBioSystem b val
  else if effRule label val then addEffect b val
  else b

/-- Embeds `extract_with_nlp`: with no model the buckets stay empty; with a model,
every entity it returns for the text is folded through the mapping rules. -/
def extractWithNlp (nlp : Option (String → List Ent)) (text : String) : Buckets :=
  match nlp with
  | none => emptyBuckets
  | some f => (f text).foldl bucketEnt emptyBuckets

/-- The merge loop of `build_graph`: `cands[k].update(nlp_cands.get(k, set()))`. -/
def mergeBuckets (c n : Buckets) : Buckets :=
  { experiment := c.experiment ++ n.experiment
  , project := c.project ++ n.project
  , bioSystem := c.bioSystem ++ n.bioSystem
  , effect := c.effect ++ n.effect }

/-- JSON values, as far as the builder inspects them (`isinstance` checks). -/
inductive JVal where
  | jstr : String → JVal
  | jnum : Int → JVal
  | jbool : Bool → JVal
  | jnull : JVal
  | jarr : List JVal → JVal
  | jobj : List (String × JVal) → JVal

/-- A parsed per-document JSON object (a dict at top level). -/
abbrev Doc := List (String × JVal)

def jlookup (item : Doc) (k : String) : Option JVal :=
  (item.find? (fun p => p.1 == k)).map (·.2)

/-- Python truthiness of a JSON value. -/
def truthy : JVal → Bool
  | JVal.jstr s => !s.data.isEmpty
  | JVal.jnum n => n ≠ 0
  | JVal.jbool b => b
  | JVal.jnull => false
  | JVal.jarr l => !l.isEmpty
  | JVal.jobj l => !l.isEmpty

/-- Python `a or b` on two optional JSON values (`s.get("text") or s.get("content")`). -/
def pyOr (a b : Option JVal) : Option JVal :=
  match a with
  | some v => if truthy v then some v else b
  | none => b

/-- One candidate title key of `get_article_label`: present, a string, and
non-empty after stripping. -/
def titleKeyVal (item : Doc) (k : String) : Option String :=
  match jlookup item k with
  | some (JVal.jstr s) => if (pyStrip s.data).isEmpty then none else some s
  | _ => none

/-- Embeds `get_article_label`: first usable key of title/article_title/paper_title,
else the fallback, normalized. -/
def getArticleLabel (item : Doc) (fallback : String) : String :=
  match titleKeyVal item "title" with
  | some s => normalizeLabel s
  | none => match titleKeyVal item "article_title" with
    | some s => normalizeLabel s
    | none => match titleKeyVal item "paper_title" with
      | some s => normalizeLabel s
      | none => normalizeLabel fallback

/-- Text of one element of the `sections` array in `concatenate_text`. -/
def sectionText : JVal → Option String
  | JVal.jobj d =>
    match pyOr (jlookup d "text") (jlookup d "content") with
    | some (JVal.jstr t) => some t
    | _ => none
  | JVal.jstr s => some s
  | _ => none

/-- Embeds `concatenate_text`: string fields, then section texts, joined by blank
lines and capped at 200000 characters. -/
def concatenateText (item : Doc) : String :=
  let keyParts := ["abstract", "summary", "content", "fulltext"].filterMap
    (fun k => match jlookup item k with
      | some (JVal.jstr s) => some s
      | _ => none)
  let secParts := match jlookup item "sections" with
    | some (JVal.jarr l) => l.filterMap sectionText
    | _ => []
  String.mk ((String.intercalate "\n\n" (keyParts ++ secParts)).data.take 200000)

/-- Embeds `read_parsed_jsons`: each file either parses to a document or fails; a
failure is logged and skipped, so the returned list keeps exactly the
successfully parsed documents in file order. -/
def readParsedJsons (files : List (Option Doc)) : List Doc := files.filterMap id

structure Node where
  id : String
  type : String
  label : String
  deriving DecidableEq, Repr

structure Edge where
  source : String
  target : String
  relation : String
  deriving DecidableEq, Repr

/-- The mutable build stores of `build_graph`: the deduplication dict
`node_index` (an association list keyed by `(type, label)`), and the output
lists `nodes` and `edges`. -/
structure St where
  nodeIndex : List ((String × String) × String)
  nodes : List Node
  edges : List Edge
  deriving DecidableEq, Repr

def initSt : St := ⟨[], [], []⟩

/-- Dict lookup in `node_index`. -/
def lookupIndex : List ((String × String) × String) → String × String → Option String
  | [], _ => none
  | p :: rest, k => if p.1 = k then some p.2 else lookupIndex rest k

/-- Embeds `add_node`: reuse the id of an existing `(type, label)` key, otherwise
append a fresh node whose id is the type slug followed by the total node
count plus one. -/
def addNode (st : St) (ntype lab : String) : String × St :=
  match lookupIndex st.nodeIndex (ntype, lab) with
  | some id0 => (id0, st)
  | none =>
    let nodeId := typeSlug ntype ++ "_" ++ natRepr (st.nodes.length + 1)
    (nodeId,
     { st with
       nodes := st.nodes ++ [⟨nodeId, ntype, lab⟩]
       nodeIndex := st.nodeIndex ++ [((ntype, lab), nodeId)] })

/-- Embeds `add_edge`. -/
def addEdge (st : St) (src dst rel : String) : St :=
  { st with edges := st.edges ++ [⟨src, dst, rel⟩] }

/-- Kernel-computable lexicographic (code-point) ≤ on character lists, the
order Python's `sorted` uses on strings. -/
def lexLe : List Char → List Char → Bool
  | [], _ => true
  | _ :: _, [] => false
  | a :: as, b :: bs =>
    if a.toNat < b.toNat then true
    else if b.toNat < a.toNat then false
    else lexLe as bs

/-- Python string comparison `a <= b` (code-point lexicographic). -/
def strLe (a b : String) : Bool := lexLe a.data b.data

/-- Python's `sorted(<set>)` over a candidate set represented as a list:
`enum` is the (arbitrary) iteration order of the set, i.e. any enumeration
of the distinct elements; `sorted` then sorts it.  The canonical
enumeration used by `buildState` is `List.dedup`. -/
def sortedSet (enum : List String → List String) (l : List String) : List String :=
  List.insertionSort (fun a b => strLe a b = true) (enum l)

/-- Body of the Experiment loop of `build_graph`: create/reuse the node, add
the `DESCRIBES` edge from the article, record the id. -/
def expStep (articleId : String) (acc : St × List String) (exp : String) : St × List String :=
  let r := addNode acc.1 "Experiment" (normalizeLabel exp)
  (addEdge r.2 articleId r.1 "DESCRIBES", acc.2 ++ [r.1])

/-- Body of the Biological System loop: node only, no edge. -/
def bioStep (acc : St × List String) (bio : String) : St × List String :=
  let r := addNode acc.1 "Biological System" (normalizeLabel bio)
  (r.2, acc.2 ++ [r.1])

/-- Body of the Effect loop: node only, no edge. -/
def effStep (acc : St × List String) (eff : String) : St × List String :=
  let r := addNode acc.1 "Effect" (normalizeLabel eff)
  (r.2, acc.2 ++ [r.1])

/-- Body of the Project loop: create/reuse the node, add the `FUNDS` edge to
the article. -/
def projStep (articleId : String) (acc : St × List String) (proj : String) : St × List String :=
  let r := addNode acc.1 "Project" (normalizeLabel proj)
  (addEdge r.2 r.1 articleId "FUNDS", acc.2 ++ [r.1])

/-- The cross-linking loop: `INVOLVES` to every biological system and
`OBSERVES` to every effect, for every experiment of the document. -/
def crossEdges (st : St) (expIds bioIds effIds : List String) : St :=
  expIds.foldl
    (fun s eid =>
      effIds.foldl (fun s2 fid => addEdge s2 eid fid "OBSERVES")
        (bioIds.foldl (fun s2 bid => addEdge s2 eid bid "INVOLVES") s))
    st

/-- The merged candidate buckets of one document (`cands` after the merge
loop of `build_graph`). -/
def docCands (nlp : Option (String → List Ent)) (item : Doc) : Buckets :=
  mergeBuckets (extractCandidates (concatenateText item))
    (extractWithNlp nlp (concatenateText item))

/-- The article label: `get_article_label(item, f"Article {idx}")`. -/
def articleLabelOf (idx : Nat) (item : Doc) : String :=
  getArticleLabel item ("Article " ++ natRepr idx)

/-- The `article_id = add_node("Article", article_label)` step. -/
def raOf (st : St) (idx : Nat) (item : Doc) : String × St :=
  addNode st "Article" (articleLabelOf idx item)

/-- State and `exp_ids` after the Experiment loop. -/
def peOf (enum : List String → List String) (nlp : Option (String → List Ent))
    (st : St) (idx : Nat) (item : Doc) : St × List String :=
  (sortedSet enum (docCands nlp item).experiment).foldl
    (expStep (raOf st idx item).1) ((raOf st idx item).2, [])

/-- State and `bio_ids` after the Biological System loop. -/
def pbOf (enum : List String → List String) (nlp : Option (String → List Ent))
    (st : St) (idx : Nat) (item : Doc) : St × List String :=
  (sortedSet enum (docCands nlp item).bioSystem).foldl bioStep
    ((peOf enum nlp st idx item).1, [])

/-- State and `eff_ids` after the Effect loop. -/
def pfOf (enum : List String → List String) (nlp : Option (String → List Ent))
    (st : St) (idx : Nat) (item : Doc) : St × List String :=
  (sortedSet enum (docCands nlp item).effect).foldl effStep
    ((pbOf enum nlp st idx item).1, [])

/-- State and `proj_ids` after the Project loop. -/
def ppOf (enum : List String → List String) (nlp : Option (String → List Ent))
    (st : St) (idx : Nat) (item : Doc) : St × List String :=
  (sortedSet enum (docCands nlp item).project).foldl (projStep (raOf st idx item).1)
    ((pfOf enum nlp st idx item).1, [])

/-- Processing of one document inside the main loop of `build_graph`: the
article node, the four term loops, then the cross-linking loop. -/
def processDoc (enum : List String → List String) (nlp : Option (String → List Ent))
    (st : St) (idx : Nat) (item : Doc) : St :=
  crossEdges (ppOf enum nlp st idx item).1 (peOf enum nlp st idx item).2
    (pbOf enum nlp st idx item).2 (pfOf enum nlp st idx item).2

/-- One iteration of the document loop of `build_graph`. -/
def buildStep (enum : List String → List String) (nlp : Option (String → List Ent))
    (acc : St × Nat) (item : Doc) : St × Nat :=
  (processDoc enum nlp acc.1 acc.2 item, acc.2 + 1)

/-- The whole build (`enumerate(items, start=1)` threading the stores). -/
def buildState (enum : List String → List String) (nlp : Option (String → List Ent))
    (items : List Doc) : St :=
  (items.foldl (buildStep enum nlp) (initSt, 1)).1

/-- Embeds `build_graph`'s return value `(nodes, edges)`, with the canonical set
enumeration. -/
def buildGraph (nlp : Option (String → List Ent)) (items : List Doc) :
    List Node × List Edge :=
  ((buildState (fun l => l.dedup) nlp items).nodes,
   (buildState (fun l => l.dedup) nlp items).edges)

/-- The deduplication key of a node. -/
def nodeKey (n : Node) : String × String := (n.type, n.label)

/-- The ids of the nodes currently in the store. -/
def nodeIds (st : St) : List String := st.nodes.map Node.id

/-- The five node types `build_graph` ever passes to `add_node`. -/
def allowedTypes : List String :=
  ["Article", "Experiment", "Project", "Biological System", "Effect"]

/-- The build-store invariant maintained by `add_node` / `add_edge`:
the index and the node list mirror each other, `(type, label)` keys are
unique, edges only reference existing node ids, every id records the total
node count at creation time, and only the five known types occur. -/
structure Inv (st : St) : Prop where
  nodesIndexed : ∀ n ∈ st.nodes, lookupIndex st.nodeIndex (nodeKey n) = some n.id
  indexSound : ∀ k id0, lookupIndex st.nodeIndex k = some id0 →
    ∃ n, n ∈ st.nodes ∧ nodeKey n = k ∧ n.id = id0
  keysNodup : (st.nodes.map nodeKey).Nodup
  edgesValid : ∀ e ∈ st.edges, e.source ∈ nodeIds st ∧ e.target ∈ nodeIds st
  idFormula : ∀ i (h : i < st.nodes.length),
    st.nodes[i].id = typeSlug st.nodes[i].type ++ "_" ++ natRepr (i + 1)
  typesOk : ∀ n ∈ st.nodes, n.type ∈ allowedTypes

/-- The node appended by a miss of the dedup index. -/
def freshNode (st : St) (ntype lab : String) : Node :=
  ⟨typeSlug ntype ++ "_" ++ natRepr (st.nodes.length + 1), ntype, lab⟩

/-- All ids in a list are ids of nodes of the store. -/
def idsValid (st : St) (ids : List String) : Prop := ∀ x ∈ ids, x ∈ nodeIds st

/-- Accumulator property for the four per-document term loops: the invariant
holds, the article id is a live node id, and all collected ids are live. -/
def AccOk (aId : String) (acc : St × List String) : Prop :=
  Inv acc.1 ∧ aId ∈ nodeIds acc.1 ∧ idsValid acc.1 acc.2

/-- A small concrete parsed document used to witness the theorems: its text
mentions exactly one dictionary term ("experiment"). -/
def exDoc : Doc := [("title", JVal.jstr "T"), ("abstract", JVal.jstr "an experiment")]

/-- A valid-JSON document whose text fields are non-strings. -/
def badDoc : Doc := [("title", JVal.jnum 5), ("abstract", JVal.jnum 7)]

/-- The `(type, label)` key of the node a given id resolves to in a node
list (the way a consumer of `nodes.json` would key edges by id). -/
def keyOfId (nodes : List Node) (i : String) : Option (String × String) :=
  (nodes.find? (fun n => n.id == i)).map nodeKey

/-- An edge with its endpoint ids resolved to node keys. -/
def edgeKeyOf (nodes : List Node) (e : Edge) :
    Option (String × String) × Option (String × String) × String :=
  (keyOfId nodes e.source, keyOfId nodes e.target, e.relation)

/-- The `(type, label)` node keys a document contributes: the article key
and one key per merged candidate term of each type. -/
def docNodeKeys (nlp : Option (String → List Ent)) (idx : Nat) (item : Doc) :
    List (String × String) :=
  ("Article", articleLabelOf idx item) ::
    ((docCands nlp item).experiment.map (fun t => ("Experiment", normalizeLabel t))
     ++ (docCands nlp item).bioSystem.map (fun t => ("Biological System", normalizeLabel t))
     ++ (docCands nlp item).effect.map (fun t => ("Effect", normalizeLabel t))
     ++ (docCands nlp item).project.map (fun t => ("Project", normalizeLabel t)))

/-- The resolved edge keys a document contributes: DESCRIBES from the
article key to each merged experiment key, FUNDS from each merged project
key to the article key, and the INVOLVES/OBSERVES cross product. -/
def docEdgeKeys (nlp : Option (String → List Ent)) (idx : Nat) (item : Doc) :
    List (Option (String × String) × Option (String × String) × String) :=
  ((docCands nlp item).experiment.map (fun t =>
      (some ("Article", articleLabelOf idx item),
       some ("Experiment", normalizeLabel t), "DESCRIBES")))
  ++ ((docCands nlp item).project.map (fun p =>
      (some ("Project", normalizeLabel p),
       some ("Article", articleLabelOf idx item), "FUNDS")))
  ++ ((docCands nlp item).experiment.flatMap (fun t =>
      (docCands nlp item).bioSystem.map (fun b =>
        (some ("Experiment", normalizeLabel t),
         some ("Biological System", normalizeLabel b), "INVOLVES"))
      ++ (docCands nlp item).effect.map (fun f2 =>
        (some ("Experiment", normalizeLabel t),
         some ("Effect", normalizeLabel f2), "OBSERVES"))))

/-- A concrete enrichment model returning one ORG entity whose text contains
"mission", so it lands in the Experiment bucket. -/
def exNlp : String → List Ent := fun _ => [⟨"ORG", "Apollo mission"⟩]

/-- A document whose text mentions one experiment term and one biological
system term. -/
def exDoc2 : Doc := [("title", JVal.jstr "T"), ("abstract", JVal.jstr "experiment cell")]

theorem lexLe_total : ∀ a b : List Char, lexLe a b = true ∨ lexLe b a = true := by
  intro a
  induction a with
  | nil => intro b; left; rfl
  | cons x as ih =>
    intro b
    cases b with
    | nil => right; rfl
    | cons y bs =>
      by_cases h1 : x.toNat < y.toNat
      · left; simp [lexLe, h1]
      · by_cases h2 : y.toNat < x.toNat
        · right; simp [lexLe, h2]
        · rcases ih bs with h | h
          · left; simp [lexLe, h1, h2, h]
          · right; simp [lexLe, h1, h2, h]

theorem lexLe_trans : ∀ a b c : List Char, lexLe a b = true → lexLe b c = true →
    lexLe a c = true := by
  intro a
  induction a with
  | nil => intro b c _ _; rfl
  | cons x as ih =>
    intro b c hab hbc
    cases b with
    | nil => simp [lexLe] at hab
    | cons y bs =>
      cases c with
      | nil => simp [lexLe] at hbc
      | cons z cs =>
        simp only [lexLe] at hab hbc ⊢
        split_ifs at hab hbc ⊢ with h1 h2 h3 h4 h5 h6 <;> try rfl
        all_goals first
          | omega
          | (exact ih bs cs hab hbc)

theorem lexLe_antisymm : ∀ a b : List Char, lexLe a b = true → lexLe b a = true → a = b := by
  intro a
  induction a with
  | nil =>
    intro b _ hba
    cases b with
    | nil => rfl
    | cons y bs => simp [lexLe] at hba
  | cons x as ih =>
    intro b hab hba
    cases b with
    | nil => simp [lexLe] at hab
    | cons y bs =>
      simp only [lexLe] at hab hba
      split_ifs at hab hba with h1 h2 <;> try omega
      · have hn : x.toNat = y.toNat := by omega
        have hxy : x = y := Char.ext (UInt32.ext hn)
        rw [hxy, ih bs hab hba]

theorem initSt_inv : Inv initSt := by
  refine ⟨?_, ?_, ?_, ?_, ?_, ?_⟩ <;> simp [initSt, lookupIndex]

theorem lookupIndex_append (l1 l2 : List ((String × String) × String)) (k : String × String) :
    lookupIndex (l1 ++ l2) k =
      match lookupIndex l1 k with
      | some v => some v
      | none => lookupIndex l2 k := by
  induction l1 with
  | nil => simp [lookupIndex]
  | cons p rest ih =>
    by_cases h : p.1 = k <;> simp [lookupIndex, h, ih]

theorem addNode_hit (st : St) (t lab id0 : String)
    (h : lookupIndex st.nodeIndex (t, lab) = some id0) :
    addNode st t lab = (id0, st) := by
  simp [addNode, h]

theorem addNode_miss (st : St) (t lab : String)
    (h : lookupIndex st.nodeIndex (t, lab) = none) :
    addNode st t lab =
      ((freshNode st t lab).id,
       { st with
         nodes := st.nodes ++ [freshNode st t lab]
         nodeIndex := st.nodeIndex ++ [((t, lab), (freshNode st t lab).id)] }) := by
  simp [addNode, h, freshNode]

theorem addNode_edges (st : St) (t lab : String) :
    ((addNode st t lab).2).edges = st.edges := by
  cases h : lookupIndex st.nodeIndex (t, lab) with
  | none => rw [addNode_miss st t lab h]
  | some id0 => rw [addNode_hit st t lab id0 h]

theorem addNode_nodes_mono (st : St) (t lab : String) :
    ∃ l, ((addNode st t lab).2).nodes = st.nodes ++ l := by
  cases h : lookupIndex st.nodeIndex (t, lab) with
  | none => exact ⟨[freshNode st t lab], by rw [addNode_miss st t lab h]⟩
  | some id0 => exact ⟨[], by rw [addNode_hit st t lab id0 h]; simp⟩

theorem nodeIds_mono_of_append {st st' : St} (l : List Node)
    (h : st'.nodes = st.nodes ++ l) {x : String} (hx : x ∈ nodeIds st) :
    x ∈ nodeIds st' := by
  simp only [nodeIds, h, List.map_append, List.mem_append]
  exact Or.inl hx

theorem addNode_id_mem (st : St) (t lab : String) (hinv : Inv st) :
    ∃ n, n ∈ ((addNode st t lab).2).nodes ∧ n.id = (addNode st t lab).1 ∧
      nodeKey n = (t, lab) := by
  cases h : lookupIndex st.nodeIndex (t, lab) with
  | none =>
    refine ⟨freshNode st t lab, ?_, ?_, rfl⟩
    · rw [addNode_miss st t lab h]; simp
    · rw [addNode_miss st t lab h]
  | some id0 =>
    obtain ⟨n, hn, hk, hid⟩ := hinv.indexSound (t, lab) id0 h
    exact ⟨n, by rw [addNode_hit st t lab id0 h]; exact hn,
      by rw [addNode_hit st t lab id0 h]; exact hid, hk⟩

theorem addNode_ret_mem (st : St) (t lab : String) (hinv : Inv st) :
    (addNode st t lab).1 ∈ nodeIds ((addNode st t lab).2) := by
  obtain ⟨n, hn, hid, _⟩ := addNode_id_mem st t lab hinv
  exact hid ▸ List.mem_map_of_mem Node.id hn

theorem addNode_inv (st : St) (t lab : String) (hty : t ∈ allowedTypes) (hinv : Inv st) :
    Inv ((addNode st t lab).2) := by
  cases h : lookupIndex st.nodeIndex (t, lab) with
  | some id0 => rw [addNode_hit st t lab id0 h]; exact hinv
  | none =>
    rw [addNode_miss st t lab h]
    have hkey : nodeKey (freshNode st t lab) = (t, lab) := rfl
    have hnotmem : (t, lab) ∉ st.nodes.map nodeKey := by
      intro hmem
      obtain ⟨n, hn, hk⟩ := List.mem_map.mp hmem
      have := hinv.nodesIndexed n hn
      rw [hk, h] at this
      exact Option.noConfusion this
    refine ⟨?_, ?_, ?_, ?_, ?_, ?_⟩
    · intro n hn
      rcases List.mem_append.mp hn with hn | hn
      · rw [lookupIndex_append, hinv.nodesIndexed n hn]
      · rcases List.mem_singleton.mp hn with rfl
        rw [lookupIndex_append, hkey, h]
        simp [lookupIndex]
    · intro k id0 hlk
      rw [lookupIndex_append] at hlk
      cases hlk1 : lookupIndex st.nodeIndex k with
      | some v =>
        rw [hlk1] at hlk
        obtain ⟨n, hn, hk, hid⟩ := hinv.indexSound k id0 (by rw [hlk1, ← hlk])
        exact ⟨n, List.mem_append_left _ hn, hk, hid⟩
      | none =>
        rw [hlk1] at hlk
        simp only [lookupIndex] at hlk
        by_cases hkk : (t, lab) = k
        · rw [if_pos hkk] at hlk
          exact ⟨freshNode st t lab, List.mem_append_right _ (List.mem_singleton_self _),
            hkk ▸ hkey, (Option.some.injEq _ _).mp hlk |>.symm ▸ rfl⟩
        · rw [if_neg hkk] at hlk
          exact Option.noConfusion hlk
    · rw [List.map_append]
      simp only [List.map_cons, List.map_nil, hkey]
      rw [List.nodup_append]
      exact ⟨hinv.keysNodup, List.nodup_singleton _,
        by intro a ha hb; rcases List.mem_singleton.mp hb with rfl; exact hnotmem ha⟩
    · intro e he
      obtain ⟨h1, h2⟩ := hinv.edgesValid e he
      constructor
      · exact nodeIds_mono_of_append [freshNode st t lab] rfl h1
      · exact nodeIds_mono_of_append [freshNode st t lab] rfl h2
    · intro i hlen
      simp only [List.length_append, List.length_singleton] at hlen
      by_cases hi : i < st.nodes.length
      · rw [List.getElem_append_left hi]
        exact hinv.idFormula i hi
      · have hieq : i = st.nodes.length := by omega
        subst hieq
        have : st.nodes.length ≤ st.nodes.length := le_refl _
        rw [List.getElem_append_right this]
        simp [freshNode]
    · intro n hn
      rcases List.mem_append.mp hn with hn | hn
      · exact hinv.typesOk n hn
      · rcases List.mem_singleton.mp hn with rfl
        exact hty

theorem addEdge_inv (st : St) (src dst rel : String)
    (hs : src ∈ nodeIds st) (hd : dst ∈ nodeIds st) (hinv : Inv st) :
    Inv (addEdge st src dst rel) := by
  refine ⟨hinv.nodesIndexed, hinv.indexSound, hinv.keysNodup, ?_, hinv.idFormula, hinv.typesOk⟩
  intro e he
  rcases List.mem_append.mp he with he | he
  · exact hinv.edgesValid e he
  · rcases List.mem_singleton.mp he with rfl
    exact ⟨hs, hd⟩

theorem nodeIds_addEdge (st : St) (src dst rel : String) :
    nodeIds (addEdge st src dst rel) = nodeIds st := rfl

theorem nodeIds_mono_addNode (st : St) (t lab : String) {x : String}
    (hx : x ∈ nodeIds st) : x ∈ nodeIds ((addNode st t lab).2) := by
  obtain ⟨l, hl⟩ := addNode_nodes_mono st t lab
  exact nodeIds_mono_of_append l hl hx

theorem foldl_induction {α σ : Type _} (P : σ → Prop) (f : σ → α → σ)
    (step : ∀ s a, P s → P (f s a)) :
    ∀ (l : List α) (s : σ), P s → P (l.foldl f s) := by
  intro l
  induction l with
  | nil => intro s h; exact h
  | cons a t ih => intro s h; exact ih (f s a) (step s a h)

theorem foldl_induction_mem {α σ : Type _} (P : σ → Prop) (f : σ → α → σ) :
    ∀ (l : List α), (∀ s a, a ∈ l → P s → P (f s a)) → ∀ s, P s → P (l.foldl f s) := by
  intro l
  induction l with
  | nil => intro _ s h; exact h
  | cons a t ih =>
    intro step s h
    exact ih (fun s b hb hs => step s b (List.mem_cons_of_mem a hb) hs) (f s a)
      (step s a (List.mem_cons_self a t) h)

theorem idsValid_mono {st st' : St} (l : List Node) (h : st'.nodes = st.nodes ++ l)
    {ids : List String} (hids : idsValid st ids) : idsValid st' ids :=
  fun x hx => nodeIds_mono_of_append l h (hids x hx)

theorem step_nodes_mono_of
    (mk : St × List String → String → St × List String)
    (hmk : ∀ acc x, ∃ l, (mk acc x).1.nodes = acc.1.nodes ++ l) :
    ∀ (L : List String) (acc : St × List String),
      ∃ l, (L.foldl mk acc).1.nodes = acc.1.nodes ++ l := by
  intro L
  induction L with
  | nil => intro acc; exact ⟨[], by simp⟩
  | cons x L ih =>
    intro acc
    obtain ⟨l1, h1⟩ := hmk acc x
    obtain ⟨l2, h2⟩ := ih (mk acc x)
    exact ⟨l1 ++ l2, by rw [List.foldl_cons, h2, h1, List.append_assoc]⟩

theorem expStep_nodes (aId : String) (acc : St × List String) (x : String) :
    ∃ l, (expStep aId acc x).1.nodes = acc.1.nodes ++ l := by
  obtain ⟨l, hl⟩ := addNode_nodes_mono acc.1 "Experiment" (normalizeLabel x)
  exact ⟨l, hl⟩

theorem bioStep_nodes (acc : St × List String) (x : String) :
    ∃ l, (bioStep acc x).1.nodes = acc.1.nodes ++ l :=
  addNode_nodes_mono acc.1 "Biological System" (normalizeLabel x)

theorem effStep_nodes (acc : St × List String) (x : String) :
    ∃ l, (effStep acc x).1.nodes = acc.1.nodes ++ l :=
  addNode_nodes_mono acc.1 "Effect" (normalizeLabel x)

theorem projStep_nodes (aId : String) (acc : St × List String) (x : String) :
    ∃ l, (projStep aId acc x).1.nodes = acc.1.nodes ++ l := by
  obtain ⟨l, hl⟩ := addNode_nodes_mono acc.1 "Project" (normalizeLabel x)
  exact ⟨l, hl⟩

theorem expStep_ok (aId : String) (acc : St × List String) (x : String)
    (h : AccOk aId acc) : AccOk aId (expStep aId acc x) := by
  obtain ⟨hinv, ha, hids⟩ := h
  obtain ⟨l, hl⟩ := addNode_nodes_mono acc.1 "Experiment" (normalizeLabel x)
  have hinv1 := addNode_inv acc.1 "Experiment" (normalizeLabel x) (by decide) hinv
  have hret := addNode_ret_mem acc.1 "Experiment" (normalizeLabel x) hinv
  have ha1 : aId ∈ nodeIds (addNode acc.1 "Experiment" (normalizeLabel x)).2 :=
    nodeIds_mono_of_append l hl ha
  refine ⟨addEdge_inv _ aId _ _ ha1 hret hinv1, ha1, ?_⟩
  intro y hy
  rcases List.mem_append.mp hy with hy | hy
  · exact nodeIds_mono_of_append l hl (hids y hy)
  · rcases List.mem_singleton.mp hy with rfl
    exact hret

theorem bioStep_ok (aId : String) (acc : St × List String) (x : String)
    (h : AccOk aId acc) : AccOk aId (bioStep acc x) := by
  obtain ⟨hinv, ha, hids⟩ := h
  obtain ⟨l, hl⟩ := addNode_nodes_mono acc.1 "Biological System" (normalizeLabel x)
  refine ⟨addNode_inv acc.1 "Biological System" (normalizeLabel x) (by decide) hinv,
    nodeIds_mono_of_append l hl ha, ?_⟩
  intro y hy
  rcases List.mem_append.mp hy with hy | hy
  · exact nodeIds_mono_of_append l hl (hids y hy)
  · rcases List.mem_singleton.mp hy with rfl
    exact addNode_ret_mem acc.1 "Biological System" (normalizeLabel x) hinv

theorem effStep_ok (aId : String) (acc : St × List String) (x : String)
    (h : AccOk aId acc) : AccOk aId (effStep acc x) := by
  obtain ⟨hinv, ha, hids⟩ := h
  obtain ⟨l, hl⟩ := addNode_nodes_mono acc.1 "Effect" (normalizeLabel x)
  refine ⟨addNode_inv acc.1 "Effect" (normalizeLabel x) (by decide) hinv,
    nodeIds_mono_of_append l hl ha, ?_⟩
  intro y hy
  rcases List.mem_append.mp hy with hy | hy
  · exact nodeIds_mono_of_append l hl (hids y hy)
  · rcases List.mem_singleton.mp hy with rfl
    exact addNode_ret_mem acc.1 "Effect" (normalizeLabel x) hinv

theorem projStep_ok (aId : String) (acc : St × List String) (x : String)
    (h : AccOk aId acc) : AccOk aId (projStep aId acc x) := by
  obtain ⟨hinv, ha, hids⟩ := h
  obtain ⟨l, hl⟩ := addNode_nodes_mono acc.1 "Project" (normalizeLabel x)
  have hinv1 := addNode_inv acc.1 "Project" (normalizeLabel x) (by decide) hinv
  have hret := addNode_ret_mem acc.1 "Project" (normalizeLabel x) hinv
  have ha1 : aId ∈ nodeIds (addNode acc.1 "Project" (normalizeLabel x)).2 :=
    nodeIds_mono_of_append l hl ha
  refine ⟨addEdge_inv _ _ aId _ hret ha1 hinv1, ha1, ?_⟩
  intro y hy
  rcases List.mem_append.mp hy with hy | hy
  · exact nodeIds_mono_of_append l hl (hids y hy)
  · rcases List.mem_singleton.mp hy with rfl
    exact hret

theorem crossEdges_nodes (st : St) (expIds bioIds effIds : List String) :
    (crossEdges st expIds bioIds effIds).nodes = st.nodes := by
  unfold crossEdges
  refine foldl_induction (fun s : St => s.nodes = st.nodes) _ ?_ expIds st rfl
  intro s eid hs
  refine foldl_induction (fun s2 : St => s2.nodes = st.nodes)
    (fun s2 fid => addEdge s2 eid fid "OBSERVES") (fun _ _ h => h) effIds _ ?_
  exact foldl_induction (fun s2 : St => s2.nodes = st.nodes)
    (fun s2 bid => addEdge s2 eid bid "INVOLVES") (fun _ _ h => h) bioIds s hs

theorem crossEdges_inv (st : St) (expIds bioIds effIds : List String)
    (he : idsValid st expIds) (hb : idsValid st bioIds) (hf : idsValid st effIds)
    (hinv : Inv st) : Inv (crossEdges st expIds bioIds effIds) := by
  unfold crossEdges
  refine (foldl_induction_mem (fun s : St => Inv s ∧ s.nodes = st.nodes) _ expIds ?_ st
    ⟨hinv, rfl⟩).1
  intro s eid heid hs
  have hmem : eid ∈ nodeIds s := by
    rw [show nodeIds s = nodeIds st from congrArg (List.map Node.id) hs.2]
    exact he eid heid
  have inner1 := foldl_induction_mem (fun s2 : St => Inv s2 ∧ s2.nodes = st.nodes)
    (fun s2 bid => addEdge s2 eid bid "INVOLVES") bioIds
    (fun s2 bid hbid hs2 => by
      have heid2 : eid ∈ nodeIds s2 := by
        rw [show nodeIds s2 = nodeIds st from congrArg (List.map Node.id) hs2.2]
        exact he eid heid
      have hbid2 : bid ∈ nodeIds s2 := by
        rw [show nodeIds s2 = nodeIds st from congrArg (List.map Node.id) hs2.2]
        exact hb bid hbid
      exact ⟨addEdge_inv s2 eid bid "INVOLVES" heid2 hbid2 hs2.1, hs2.2⟩) s hs
  exact foldl_induction_mem (fun s2 : St => Inv s2 ∧ s2.nodes = st.nodes)
    (fun s2 fid => addEdge s2 eid fid "OBSERVES") effIds
    (fun s2 fid hfid hs2 => by
      have heid2 : eid ∈ nodeIds s2 := by
        rw [show nodeIds s2 = nodeIds st from congrArg (List.map Node.id) hs2.2]
        exact he eid heid
      have hfid2 : fid ∈ nodeIds s2 := by
        rw [show nodeIds s2 = nodeIds st from congrArg (List.map Node.id) hs2.2]
        exact hf fid hfid
      exact ⟨addEdge_inv s2 eid fid "OBSERVES" heid2 hfid2 hs2.1, hs2.2⟩) _ inner1

theorem raOf_inv (st : St) (idx : Nat) (item : Doc) (h : Inv st) :
    Inv (raOf st idx item).2 :=
  addNode_inv st "Article" (articleLabelOf idx item) (by decide) h

theorem raOf_mem (st : St) (idx : Nat) (item : Doc) (h : Inv st) :
    (raOf st idx item).1 ∈ nodeIds (raOf st idx item).2 :=
  addNode_ret_mem st "Article" (articleLabelOf idx item) h

theorem peOf_ok (enum : List String → List String) (nlp : Option (String → List Ent))
    (st : St) (idx : Nat) (item : Doc) (h : Inv st) :
    AccOk (raOf st idx item).1 (peOf enum nlp st idx item) :=
  foldl_induction (AccOk (raOf st idx item).1) (expStep (raOf st idx item).1)
    (expStep_ok (raOf st idx item).1) _ _
    ⟨raOf_inv st idx item h, raOf_mem st idx item h,
     fun x hx => absurd hx (List.not_mem_nil x)⟩

theorem pbOf_ok (enum : List String → List String) (nlp : Option (String → List Ent))
    (st : St) (idx : Nat) (item : Doc) (h : Inv st) :
    AccOk (raOf st idx item).1 (pbOf enum nlp st idx item) :=
  foldl_induction (AccOk (raOf st idx item).1) bioStep
    (bioStep_ok (raOf st idx item).1) _ _
    ⟨(peOf_ok enum nlp st idx item h).1, (peOf_ok enum nlp st idx item h).2.1,
     fun x hx => absurd hx (List.not_mem_nil x)⟩

theorem pfOf_ok (enum : List String → List String) (nlp : Option (String → List Ent))
    (st : St) (idx : Nat) (item : Doc) (h : Inv st) :
    AccOk (raOf st idx item).1 (pfOf enum nlp st idx item) :=
  foldl_induction (AccOk (raOf st idx item).1) effStep
    (effStep_ok (raOf st idx item).1) _ _
    ⟨(pbOf_ok enum nlp st idx item h).1, (pbOf_ok enum nlp st idx item h).2.1,
     fun x hx => absurd hx (List.not_mem_nil x)⟩

theorem ppOf_ok (enum : List String → List String) (nlp : Option (String → List Ent))
    (st : St) (idx : Nat) (item : Doc) (h : Inv st) :
    AccOk (raOf st idx item).1 (ppOf enum nlp st idx item) :=
  foldl_induction (AccOk (raOf st idx item).1) (projStep (raOf st idx item).1)
    (projStep_ok (raOf st idx item).1) _ _
    ⟨(pfOf_ok enum nlp st idx item h).1, (pfOf_ok enum nlp st idx item h).2.1,
     fun x hx => absurd hx (List.not_mem_nil x)⟩

theorem peOf_nodes (enum : List String → List String) (nlp : Option (String → List Ent))
    (st : St) (idx : Nat) (item : Doc) :
    ∃ l, (peOf enum nlp st idx item).1.nodes = (raOf st idx item).2.nodes ++ l :=
  step_nodes_mono_of (expStep (raOf st idx item).1) (expStep_nodes (raOf st idx item).1) _ _

theorem pbOf_nodes (enum : List String → List String) (nlp : Option (String → List Ent))
    (st : St) (idx : Nat) (item : Doc) :
    ∃ l, (pbOf enum nlp st idx item).1.nodes = (peOf enum nlp st idx item).1.nodes ++ l :=
  step_nodes_mono_of bioStep bioStep_nodes _ _

theorem pfOf_nodes (enum : List String → List String) (nlp : Option (String → List Ent))
    (st : St) (idx : Nat) (item : Doc) :
    ∃ l, (pfOf enum nlp st idx item).1.nodes = (pbOf enum nlp st idx item).1.nodes ++ l :=
  step_nodes_mono_of effStep effStep_nodes _ _

theorem ppOf_nodes (enum : List String → List String) (nlp : Option (String → List Ent))
    (st : St) (idx : Nat) (item : Doc) :
    ∃ l, (ppOf enum nlp st idx item).1.nodes = (pfOf enum nlp st idx item).1.nodes ++ l :=
  step_nodes_mono_of (projStep (raOf st idx item).1) (projStep_nodes (raOf st idx item).1) _ _

theorem ids_valid_pp (enum : List String → List String) (nlp : Option (String → List Ent))
    (st : St) (idx : Nat) (item : Doc) (h : Inv st) :
    idsValid (ppOf enum nlp st idx item).1 (peOf enum nlp st idx item).2 ∧
    idsValid (ppOf enum nlp st idx item).1 (pbOf enum nlp st idx item).2 ∧
    idsValid (ppOf enum nlp st idx item).1 (pfOf enum nlp st idx item).2 := by
  obtain ⟨l1, h1⟩ := pbOf_nodes enum nlp st idx item
  obtain ⟨l2, h2⟩ := pfOf_nodes enum nlp st idx item
  obtain ⟨l3, h3⟩ := ppOf_nodes enum nlp st idx item
  refine ⟨?_, ?_, ?_⟩
  · refine idsValid_mono (l1 ++ l2 ++ l3) ?_ (peOf_ok enum nlp st idx item h).2.2
    rw [h3, h2, h1]; simp [List.append_assoc]
  · refine idsValid_mono (l2 ++ l3) ?_ (pbOf_ok enum nlp st idx item h).2.2
    rw [h3, h2]; simp [List.append_assoc]
  · exact idsValid_mono l3 h3 (pfOf_ok enum nlp st idx item h).2.2

theorem processDoc_inv (enum : List String → List String) (nlp : Option (String → List Ent))
    (st : St) (idx : Nat) (item : Doc) (h : Inv st) :
    Inv (processDoc enum nlp st idx item) := by
  obtain ⟨hv1, hv2, hv3⟩ := ids_valid_pp enum nlp st idx item h
  exact crossEdges_inv _ _ _ _ hv1 hv2 hv3 (ppOf_ok enum nlp st idx item h).1

theorem processDoc_nodes (enum : List String → List String) (nlp : Option (String → List Ent))
    (st : St) (idx : Nat) (item : Doc) :
    ∃ l, (processDoc enum nlp st idx item).nodes = st.nodes ++ l := by
  obtain ⟨l0, h0⟩ := addNode_nodes_mono st "Article" (articleLabelOf idx item)
  have h0a : (raOf st idx item).2.nodes = st.nodes ++ l0 := h0
  obtain ⟨l1, h1⟩ := peOf_nodes enum nlp st idx item
  obtain ⟨l2, h2⟩ := pbOf_nodes enum nlp st idx item
  obtain ⟨l3, h3⟩ := pfOf_nodes enum nlp st idx item
  obtain ⟨l4, h4⟩ := ppOf_nodes enum nlp st idx item
  refine ⟨l0 ++ l1 ++ l2 ++ l3 ++ l4, ?_⟩
  unfold processDoc
  rw [crossEdges_nodes, h4, h3, h2, h1, h0a]
  simp [List.append_assoc]

theorem buildState_inv (enum : List String → List String) (nlp : Option (String → List Ent))
    (items : List Doc) : Inv (buildState enum nlp items) :=
  foldl_induction (fun acc : St × Nat => Inv acc.1) (buildStep enum nlp)
    (fun acc item h => processDoc_inv enum nlp acc.1 acc.2 item h) items (initSt, 1) initSt_inv

theorem digitChar_injF : ∀ a b : Fin 10, Nat.digitChar a.val = Nat.digitChar b.val → a = b := by
  decide

theorem map_digitChar_inj : ∀ l1 l2 : List Nat, (∀ x ∈ l1, x < 10) → (∀ x ∈ l2, x < 10) →
    l1.map Nat.digitChar = l2.map Nat.digitChar → l1 = l2 := by
  intro l1
  induction l1 with
  | nil =>
    intro l2 _ _ h
    cases l2 with
    | nil => rfl
    | cons b t => simp at h
  | cons a t ih =>
    intro l2 h1 h2 h
    cases l2 with
    | nil => simp at h
    | cons b t2 =>
      simp only [List.map_cons, List.cons.injEq] at h
      have ha := h1 a (List.mem_cons_self a t)
      have hb := h2 b (List.mem_cons_self b t2)
      have hab : a = b := congrArg Fin.val (digitChar_injF ⟨a, ha⟩ ⟨b, hb⟩ h.1)
      rw [hab, ih t2 (fun x hx => h1 x (List.mem_cons_of_mem a hx))
        (fun x hx => h2 x (List.mem_cons_of_mem b hx)) h.2]

theorem natReprAux_eq_digits : ∀ f n, n < f →
    natReprAux f n = ((Nat.digits 10 n).map Nat.digitChar).reverse := by
  intro f
  induction f with
  | zero => intro n h; omega
  | succ f ih =>
    intro n h
    by_cases hn : n = 0
    · subst hn; simp [natReprAux]
    · rw [natReprAux, if_neg hn]
      have hdiv : n / 10 < f := by
        have : n / 10 < n := Nat.div_lt_self (Nat.pos_of_ne_zero hn) (by norm_num)
        omega
      rw [ih (n / 10) hdiv, Nat.digits_def' (by norm_num : (1:Nat) < 10) (Nat.pos_of_ne_zero hn)]
      simp

theorem natRepr_inj : ∀ m n : Nat, natRepr m = natRepr n → m = n := by
  have key : ∀ m n : Nat, m ≠ 0 → n ≠ 0 →
      String.mk (((Nat.digits 10 m).map Nat.digitChar).reverse) =
        String.mk (((Nat.digits 10 n).map Nat.digitChar).reverse) → m = n := by
    intro m n _ _ h
    have hdata : ((Nat.digits 10 m).map Nat.digitChar).reverse =
        ((Nat.digits 10 n).map Nat.digitChar).reverse := by
      have := congrArg String.data h
      simpa using this
    have hmap := List.reverse_injective hdata
    have hdig := map_digitChar_inj _ _
      (fun x hx => Nat.digits_lt_base (by norm_num) hx)
      (fun x hx => Nat.digits_lt_base (by norm_num) hx) hmap
    have := congrArg (Nat.ofDigits 10) hdig
    rwa [Nat.ofDigits_digits, Nat.ofDigits_digits] at this
  intro m n h
  by_cases hm : m = 0 <;> by_cases hn : n = 0
  · rw [hm, hn]
  · exfalso
    rw [hm] at h
    simp only [natRepr, if_pos rfl, if_neg hn] at h
    rw [natReprAux_eq_digits (n + 1) n (Nat.lt_succ_self n)] at h
    have hdata := congrArg String.data h
    simp only [String.data] at hdata
    have : Nat.digits 10 n = [0] := by
      have hrev : ((Nat.digits 10 n).map Nat.digitChar).reverse = ['0'] := hdata.symm
      have hmap : (Nat.digits 10 n).map Nat.digitChar = ['0'] := by
        have := congrArg List.reverse hrev
        simpa using this
      have h0 : ([0] : List Nat).map Nat.digitChar = ['0'] := rfl
      exact map_digitChar_inj _ _ (fun x hx => Nat.digits_lt_base (by norm_num) hx)
        (by intro x hx; simp at hx; omega) (hmap.trans h0.symm)
    have := congrArg (Nat.ofDigits 10) this
    rw [Nat.ofDigits_digits] at this
    simp [Nat.ofDigits] at this
    exact hn this
  · exfalso
    rw [hn] at h
    simp only [natRepr, if_pos rfl, if_neg hm] at h
    rw [natReprAux_eq_digits (m + 1) m (Nat.lt_succ_self m)] at h
    have hdata := congrArg String.data h
    simp only [String.data] at hdata
    have : Nat.digits 10 m = [0] := by
      have hrev : ((Nat.digits 10 m).map Nat.digitChar).reverse = ['0'] := hdata
      have hmap : (Nat.digits 10 m).map Nat.digitChar = ['0'] := by
        have := congrArg List.reverse hrev
        simpa using this
      have h0 : ([0] : List Nat).map Nat.digitChar = ['0'] := rfl
      exact map_digitChar_inj _ _ (fun x hx => Nat.digits_lt_base (by norm_num) hx)
        (by intro x hx; simp at hx; omega) (hmap.trans h0.symm)
    have := congrArg (Nat.ofDigits 10) this
    rw [Nat.ofDigits_digits] at this
    simp [Nat.ofDigits] at this
    exact hm this
  · simp only [natRepr, if_neg hm, if_neg hn] at h
    rw [natReprAux_eq_digits (m + 1) m (Nat.lt_succ_self m),
      natReprAux_eq_digits (n + 1) n (Nat.lt_succ_self n)] at h
    exact key m n hm hn h

theorem string_append_ne (s1 s2 r1 r2 : String)
    (h1 : 2 ≤ s1.data.length) (h2 : 2 ≤ s2.data.length)
    (hne : s1.data.take 2 ≠ s2.data.take 2) : s1 ++ r1 ≠ s2 ++ r2 := by
  intro h
  apply hne
  have hd := congrArg String.data h
  rw [String.data_append, String.data_append] at hd
  have := congrArg (List.take 2) hd
  rwa [List.take_append_of_le_length h1, List.take_append_of_le_length h2] at this

theorem id_formula_inj (t1 t2 : String) (h1 : t1 ∈ allowedTypes) (h2 : t2 ∈ allowedTypes)
    (m n : Nat)
    (h : typeSlug t1 ++ "_" ++ natRepr m = typeSlug t2 ++ "_" ++ natRepr n) : m = n := by
  have same : typeSlug t1 = typeSlug t2 → m = n := by
    intro hs
    rw [hs] at h
    have hd := congrArg String.data h
    rw [String.data_append, String.data_append, String.data_append,
      String.data_append] at hd
    have := List.append_cancel_left hd
    exact natRepr_inj m n (String.ext this)
  simp only [allowedTypes, List.mem_cons, List.not_mem_nil, or_false] at h1 h2
  rcases h1 with rfl | rfl | rfl | rfl | rfl <;>
    rcases h2 with rfl | rfl | rfl | rfl | rfl <;>
    first
      | exact same rfl
      | exact absurd h (string_append_ne _ _ _ _ (by decide) (by decide) (by decide))

/-- C1: in the node list of any build, the pair (type, label) is unique, and
a repeated mention of an existing (type, label) key reuses the existing
node's id and leaves the store unchanged. -/
theorem node_dedup_invariant (nlp : Option (String → List Ent)) (items : List Doc) :
    (((buildGraph nlp items).1.map nodeKey).Nodup) ∧
    ∀ n ∈ (buildGraph nlp items).1,
      addNode (buildState (fun l => l.dedup) nlp items) n.type n.label =
        (n.id, buildState (fun l => l.dedup) nlp items) := by
  have hinv := buildState_inv (fun l => l.dedup) nlp items
  refine ⟨hinv.keysNodup, ?_⟩
  intro n hn
  exact addNode_hit _ _ _ _ (hinv.nodesIndexed n hn)

theorem node_dedup_invariant_witness :
    (⟨"experiment_2", "Experiment", "experiment"⟩ : Node) ∈ (buildGraph none [exDoc]).1 ∧
    addNode (buildState (fun l => l.dedup) none [exDoc]) "Experiment" "experiment" =
      ("experiment_2", buildState (fun l => l.dedup) none [exDoc]) :=
  ⟨by decide, (node_dedup_invariant none [exDoc]).2 ⟨"experiment_2", "Experiment", "experiment"⟩ (by decide)⟩

/-- C2: every edge of any build references node ids present in the node list. -/
theorem no_dangling_edges (nlp : Option (String → List Ent)) (items : List Doc) :
    ∀ e ∈ (buildGraph nlp items).2,
      e.source ∈ (buildGraph nlp items).1.map Node.id ∧
      e.target ∈ (buildGraph nlp items).1.map Node.id := by
  have hinv := buildState_inv (fun l => l.dedup) nlp items
  exact fun e he => hinv.edgesValid e he

theorem no_dangling_edges_witness :
    (⟨"article_1", "experiment_2", "DESCRIBES"⟩ : Edge) ∈ (buildGraph none [exDoc]).2 ∧
    ("article_1" ∈ (buildGraph none [exDoc]).1.map Node.id ∧
     "experiment_2" ∈ (buildGraph none [exDoc]).1.map Node.id) :=
  ⟨by decide, no_dangling_edges none [exDoc] ⟨"article_1", "experiment_2", "DESCRIBES"⟩ (by decide)⟩

/-- C3 counterexample: the first Experiment node ever created receives id
"experiment_2" (the Article node created before it already consumed the
global counter), not "experiment_1" as a per-type counter would give. -/
theorem per_type_ids_cex :
    (buildGraph none [exDoc]).1 =
      [⟨"article_1", "Article", "T"⟩, ⟨"experiment_2", "Experiment", "experiment"⟩] ∧
    ∀ n ∈ (buildGraph none [exDoc]).1, n.id ≠ "experiment_1" := by
  exact ⟨by decide, by decide⟩

/-- C3 amended: every node id is the type slug followed by the value of a
single global counter — the total number of nodes (of all types) already
created plus one, i.e. the node's position in the node list plus one. -/
theorem node_id_formula (nlp : Option (String → List Ent)) (items : List Doc) :
    (buildGraph nlp items).1.map Node.id =
      List.zipWith (fun n k => typeSlug n.type ++ "_" ++ natRepr (k + 1))
        (buildGraph nlp items).1 (List.range (buildGraph nlp items).1.length) := by
  have hinv := buildState_inv (fun l => l.dedup) nlp items
  apply List.ext_getElem
  · simp
  · intro i hi hj
    rw [List.getElem_map, List.getElem_zipWith]
    rw [List.getElem_range]
    exact hinv.idFormula i (by simpa using hi)

theorem inv_ids_nodup (st : St) (hinv : Inv st) : (st.nodes.map Node.id).Nodup := by
  have hpw : List.Pairwise (fun a b => a ≠ b) (st.nodes.map Node.id) := by
    rw [List.pairwise_iff_getElem]
    intro i j hi hj hij
    have hbi : i < st.nodes.length := by simpa using hi
    have hbj : j < st.nodes.length := by simpa using hj
    rw [List.getElem_map, List.getElem_map]
    intro heq
    rw [hinv.idFormula i hbi, hinv.idFormula j hbj] at heq
    have := id_formula_inj _ _
      (hinv.typesOk _ (List.getElem_mem hbi))
      (hinv.typesOk _ (List.getElem_mem hbj)) _ _ heq
    omega
  exact hpw

/-- C10: all node ids of any build are globally distinct, across types,
because the numeric suffix comes from the total node count at creation. -/
theorem global_id_uniqueness (nlp : Option (String → List Ent)) (items : List Doc) :
    ((buildGraph nlp items).1.map Node.id).Nodup :=
  inv_ids_nodup (buildState (fun l => l.dedup) nlp items)
    (buildState_inv (fun l => l.dedup) nlp items)

theorem append_singleton_ne (l : List String) (v : String) : l ++ [v] ≠ l := by
  intro h
  have := congrArg List.length h
  simp at this

/-- C4 (failing input): the Effect dictionary term "DNA damage" contains
upper-case letters but is compared verbatim against the lower-cased text
(`if term in text_low`), so it can never match.  On the text "DNA damage
impairs cells" the lower-cased term does occur in the lower-cased text, yet
the extractor does not add the term. -/
theorem case_insensitive_matching_cex :
    containsSub (lowerStr "DNA damage impairs cells") (lowerStr "DNA damage") = true ∧
    "DNA damage" ∈ EFFECT_TERMS ∧
    "DNA damage" ∉ (extractCandidates "DNA damage impairs cells").effect := by
  exact ⟨by decide, by decide, by decide⟩

/-- C6: the `extract_with_nlp` bucket rules are evaluated in the fixed order
Project, Experiment, Biological System, Effect, first match wins: each
bucket grows exactly when its rule fires and no higher-priority rule does,
so an entity lands in at most one bucket. -/
theorem nlp_bucket_precedence (b : Buckets) (e : Ent) :
    ((bucketEnt b e).project ≠ b.project ↔
      projRule (upperStr e.label) (normalizeLabel e.text) = true) ∧
    ((bucketEnt b e).experiment ≠ b.experiment ↔
      (projRule (upperStr e.label) (normalizeLabel e.text) = false ∧
       expRule (upperStr e.label) (normalizeLabel e.text) = true)) ∧
    ((bucketEnt b e).bioSystem ≠ b.bioSystem ↔
      (projRule (upperStr e.label) (normalizeLabel e.text) = false ∧
       expRule (upperStr e.label) (normalizeLabel e.text) = false ∧
       bioRule (upperStr e.label) (normalizeLabel e.text) = true)) ∧
    ((bucketEnt b e).effect ≠ b.effect ↔
      (projRule (upperStr e.label) (normalizeLabel e.text) = false ∧
       expRule (upperStr e.label) (normalizeLabel e.text) = false ∧
       bioRule (upperStr e.label) (normalizeLabel e.text) = false ∧
       effRule (upperStr e.label) (normalizeLabel e.text) = true)) := by
  by_cases hp : projRule (upperStr e.label) (normalizeLabel e.text) = true
  · simp [bucketEnt, hp, addProject, append_singleton_ne]
  · rw [Bool.not_eq_true] at hp
    by_cases hx : expRule (upperStr e.label) (normalizeLabel e.text) = true
    · simp [bucketEnt, hp, hx, addExperiment, append_singleton_ne]
    · rw [Bool.not_eq_true] at hx
      by_cases hb : bioRule (upperStr e.label) (normalizeLabel e.text) = true
      · simp [bucketEnt, hp, hx, hb, addBioSystem, append_singleton_ne]
      · rw [Bool.not_eq_true] at hb
        by_cases hf : effRule (upperStr e.label) (normalizeLabel e.text) = true
        · simp [bucketEnt, hp, hx, hb, hf, addEffect, append_singleton_ne]
        · rw [Bool.not_eq_true] at hf
          simp [bucketEnt, hp, hx, hb, hf]

/-- C9 amended: a file that fails to read or parse contributes nothing: the
build over the parse results with one failing file is identical to the build
without that file, at any position in the batch. -/
theorem skip_malformed_input (nlp : Option (String → List Ent))
    (pre post : List (Option Doc)) :
    buildGraph nlp (readParsedJsons (pre ++ none :: post)) =
      buildGraph nlp (readParsedJsons (pre ++ post)) := by
  simp [readParsedJsons]

/-- C9 counterexample: a valid-JSON document whose text fields are
non-strings is not skipped: appending it to a batch changes the output (an
extra Article node with the fallback label appears). -/
theorem skip_malformed_input_cex :
    buildGraph none (readParsedJsons [some exDoc, some badDoc]) ≠
      buildGraph none (readParsedJsons [some exDoc]) ∧
    (buildGraph none (readParsedJsons [some exDoc, some badDoc])).1.map Node.id =
      ["article_1", "experiment_2", "article_3"] := by
  exact ⟨by decide, by decide⟩

theorem sortedSet_canon (enum : List String → List String)
    (h : ∀ l, (enum l).Perm l.dedup) (l : List String) :
    sortedSet enum l = sortedSet (fun l => l.dedup) l := by
  unfold sortedSet
  haveI : IsTotal String (fun a b => strLe a b = true) :=
    ⟨fun a b => lexLe_total a.data b.data⟩
  haveI : IsTrans String (fun a b => strLe a b = true) :=
    ⟨fun a b c h1 h2 => lexLe_trans a.data b.data c.data h1 h2⟩
  haveI : IsAntisymm String (fun a b => strLe a b = true) :=
    ⟨fun a b h1 h2 => String.ext (lexLe_antisymm a.data b.data h1 h2)⟩
  refine List.eq_of_perm_of_sorted ?_ (List.sorted_insertionSort _ _)
    (List.sorted_insertionSort _ _)
  exact (List.perm_insertionSort _ _).trans ((h l).trans (List.perm_insertionSort _ _).symm)

theorem buildState_canon (enum : List String → List String)
    (h : ∀ l, (enum l).Perm l.dedup) (nlp : Option (String → List Ent))
    (items : List Doc) :
    buildState enum nlp items = buildState (fun l => l.dedup) nlp items := by
  have hfun : sortedSet enum = sortedSet (fun l => l.dedup) :=
    funext (sortedSet_canon enum h)
  have hstep : buildStep enum nlp = buildStep (fun l => l.dedup) nlp := by
    funext acc item
    simp only [buildStep, processDoc, ppOf, pfOf, pbOf, peOf, hfun]
  simp only [buildState, hstep]

/-- C7: with no enrichment model, the build is deterministic: two runs whose
set iteration orders (enumerations of the distinct candidate terms) may
differ arbitrarily produce identical node lists and identical edge lists. -/
theorem build_deterministic (e1 e2 : List String → List String)
    (h1 : ∀ l, (e1 l).Perm l.dedup) (h2 : ∀ l, (e2 l).Perm l.dedup)
    (items : List Doc) :
    ((buildState e1 none items).nodes, (buildState e1 none items).edges) =
      ((buildState e2 none items).nodes, (buildState e2 none items).edges) := by
  rw [buildState_canon e1 h1, buildState_canon e2 h2]

theorem build_deterministic_witness :
    (∀ l : List String, (l.dedup.reverse).Perm l.dedup) ∧
    ((buildState (fun l => l.dedup.reverse) none [exDoc]).nodes,
      (buildState (fun l => l.dedup.reverse) none [exDoc]).edges) =
      ((buildState (fun l => l.dedup) none [exDoc]).nodes,
       (buildState (fun l => l.dedup) none [exDoc]).edges) :=
  ⟨fun l => List.reverse_perm _,
   build_deterministic (fun l => l.dedup.reverse) (fun l => l.dedup)
     (fun l => List.reverse_perm _) (fun l => List.Perm.refl _) [exDoc]⟩

theorem forall2_mem_right {α β : Type _} {R : α → β → Prop} {l1 : List α} {l2 : List β}
    (h : List.Forall₂ R l1 l2) : ∀ b ∈ l2, ∃ a ∈ l1, R a b := by
  induction h with
  | nil => intro b hb; cases hb
  | cons h1 h2 ih =>
    intro b hb
    rcases List.mem_cons.mp hb with rfl | hb
    · exact ⟨_, List.mem_cons_self _ _, h1⟩
    · obtain ⟨a, ha, hr⟩ := ih b hb
      exact ⟨a, List.mem_cons_of_mem _ ha, hr⟩

theorem forall2_mem_left {α β : Type _} {R : α → β → Prop} {l1 : List α} {l2 : List β}
    (h : List.Forall₂ R l1 l2) : ∀ a ∈ l1, ∃ b ∈ l2, R a b := by
  induction h with
  | nil => intro a ha; cases ha
  | cons h1 h2 ih =>
    intro a ha
    rcases List.mem_cons.mp ha with rfl | ha
    · exact ⟨_, List.mem_cons_self _ _, h1⟩
    · obtain ⟨b, hb, hr⟩ := ih a ha
      exact ⟨b, List.mem_cons_of_mem _ hb, hr⟩

theorem forall2_imp_nodes {terms ids : List String} {st st2 : St} (l : List Node)
    (hmono : st2.nodes = st.nodes ++ l) (T : String)
    (h : List.Forall₂ (fun t i => ∃ n, n ∈ st.nodes ∧ n.id = i ∧
      nodeKey n = (T, normalizeLabel t)) terms ids) :
    List.Forall₂ (fun t i => ∃ n, n ∈ st2.nodes ∧ n.id = i ∧
      nodeKey n = (T, normalizeLabel t)) terms ids := by
  refine List.Forall₂.imp ?_ h
  intro t i hti
  obtain ⟨n, hn, h1, h2⟩ := hti
  exact ⟨n, by rw [hmono]; exact List.mem_append_left l hn, h1, h2⟩

theorem expFold_spec (aId : String) : ∀ (terms : List String) (acc : St × List String),
    AccOk aId acc →
    ∃ newIds : List String,
      (terms.foldl (expStep aId) acc).2 = acc.2 ++ newIds ∧
      (terms.foldl (expStep aId) acc).1.edges =
        acc.1.edges ++ newIds.map (fun i => Edge.mk aId i "DESCRIBES") ∧
      List.Forall₂ (fun t i => ∃ n, n ∈ (terms.foldl (expStep aId) acc).1.nodes ∧
        n.id = i ∧ nodeKey n = ("Experiment", normalizeLabel t)) terms newIds := by
  intro terms
  induction terms with
  | nil =>
    intro acc h
    exact ⟨[], by simp, by simp, List.Forall₂.nil⟩
  | cons t rest ih =>
    intro acc h
    obtain ⟨newIds, hia, hib, hic⟩ := ih (expStep aId acc t) (expStep_ok aId acc t h)
    obtain ⟨n0, hn0mem, hn0id, hn0key⟩ := addNode_id_mem acc.1 "Experiment" (normalizeLabel t) h.1
    obtain ⟨l, hl⟩ := step_nodes_mono_of (expStep aId) (expStep_nodes aId) rest (expStep aId acc t)
    refine ⟨(addNode acc.1 "Experiment" (normalizeLabel t)).1 :: newIds, ?_, ?_, ?_⟩
    · rw [List.foldl_cons, hia]
      show (expStep aId acc t).2 ++ newIds = acc.2 ++ _ :: newIds
      simp [expStep]
    · rw [List.foldl_cons, hib]
      show (expStep aId acc t).1.edges ++ _ = _
      simp [expStep, addEdge, addNode_edges]
    · rw [List.foldl_cons]
      refine List.Forall₂.cons ?_ hic
      refine ⟨n0, ?_, hn0id, hn0key⟩
      rw [hl]
      refine List.mem_append_left l ?_
      show n0 ∈ (expStep aId acc t).1.nodes
      simpa [expStep, addEdge] using hn0mem

theorem projFold_spec (aId : String) : ∀ (terms : List String) (acc : St × List String),
    AccOk aId acc →
    ∃ newIds : List String,
      (terms.foldl (projStep aId) acc).2 = acc.2 ++ newIds ∧
      (terms.foldl (projStep aId) acc).1.edges =
        acc.1.edges ++ newIds.map (fun i => Edge.mk i aId "FUNDS") ∧
      List.Forall₂ (fun t i => ∃ n, n ∈ (terms.foldl (projStep aId) acc).1.nodes ∧
        n.id = i ∧ nodeKey n = ("Project", normalizeLabel t)) terms newIds := by
  intro terms
  induction terms with
  | nil =>
    intro acc h
    exact ⟨[], by simp, by simp, List.Forall₂.nil⟩
  | cons t rest ih =>
    intro acc h
    obtain ⟨newIds, hia, hib, hic⟩ := ih (projStep aId acc t) (projStep_ok aId acc t h)
    obtain ⟨n0, hn0mem, hn0id, hn0key⟩ := addNode_id_mem acc.1 "Project" (normalizeLabel t) h.1
    obtain ⟨l, hl⟩ := step_nodes_mono_of (projStep aId) (projStep_nodes aId) rest (projStep aId acc t)
    refine ⟨(addNode acc.1 "Project" (normalizeLabel t)).1 :: newIds, ?_, ?_, ?_⟩
    · rw [List.foldl_cons, hia]
      show (projStep aId acc t).2 ++ newIds = acc.2 ++ _ :: newIds
      simp [projStep]
    · rw [List.foldl_cons, hib]
      show (projStep aId acc t).1.edges ++ _ = _
      simp [projStep, addEdge, addNode_edges]
    · rw [List.foldl_cons]
      refine List.Forall₂.cons ?_ hic
      refine ⟨n0, ?_, hn0id, hn0key⟩
      rw [hl]
      refine List.mem_append_left l ?_
      show n0 ∈ (projStep aId acc t).1.nodes
      simpa [projStep, addEdge] using hn0mem

theorem bioFold_spec (aId : String) : ∀ (terms : List String) (acc : St × List String),
    AccOk aId acc →
    ∃ newIds : List String,
      (terms.foldl bioStep acc).2 = acc.2 ++ newIds ∧
      (terms.foldl bioStep acc).1.edges = acc.1.edges ∧
      List.Forall₂ (fun t i => ∃ n, n ∈ (terms.foldl bioStep acc).1.nodes ∧
        n.id = i ∧ nodeKey n = ("Biological System", normalizeLabel t)) terms newIds := by
  intro terms
  induction terms with
  | nil =>
    intro acc h
    exact ⟨[], by simp, by simp, List.Forall₂.nil⟩
  | cons t rest ih =>
    intro acc h
    obtain ⟨newIds, hia, hib, hic⟩ := ih (bioStep acc t) (bioStep_ok aId acc t h)
    obtain ⟨n0, hn0mem, hn0id, hn0key⟩ :=
      addNode_id_mem acc.1 "Biological System" (normalizeLabel t) h.1
    obtain ⟨l, hl⟩ := step_nodes_mono_of bioStep bioStep_nodes rest (bioStep acc t)
    refine ⟨(addNode acc.1 "Biological System" (normalizeLabel t)).1 :: newIds, ?_, ?_, ?_⟩
    · rw [List.foldl_cons, hia]
      show (bioStep acc t).2 ++ newIds = acc.2 ++ _ :: newIds
      simp [bioStep]
    · rw [List.foldl_cons, hib]
      show (bioStep acc t).1.edges = _
      simp [bioStep, addNode_edges]
    · rw [List.foldl_cons]
      refine List.Forall₂.cons ?_ hic
      refine ⟨n0, ?_, hn0id, hn0key⟩
      rw [hl]
      refine List.mem_append_left l ?_
      show n0 ∈ (bioStep acc t).1.nodes
      simpa [bioStep] using hn0mem

theorem effFold_spec (aId : String) : ∀ (terms : List String) (acc : St × List String),
    AccOk aId acc →
    ∃ newIds : List String,
      (terms.foldl effStep acc).2 = acc.2 ++ newIds ∧
      (terms.foldl effStep acc).1.edges = acc.1.edges ∧
      List.Forall₂ (fun t i => ∃ n, n ∈ (terms.foldl effStep acc).1.nodes ∧
        n.id = i ∧ nodeKey n = ("Effect", normalizeLabel t)) terms newIds := by
  intro terms
  induction terms with
  | nil =>
    intro acc h
    exact ⟨[], by simp, by simp, List.Forall₂.nil⟩
  | cons t rest ih =>
    intro acc h
    obtain ⟨newIds, hia, hib, hic⟩ := ih (effStep acc t) (effStep_ok aId acc t h)
    obtain ⟨n0, hn0mem, hn0id, hn0key⟩ := addNode_id_mem acc.1 "Effect" (normalizeLabel t) h.1
    obtain ⟨l, hl⟩ := step_nodes_mono_of effStep effStep_nodes rest (effStep acc t)
    refine ⟨(addNode acc.1 "Effect" (normalizeLabel t)).1 :: newIds, ?_, ?_, ?_⟩
    · rw [List.foldl_cons, hia]
      show (effStep acc t).2 ++ newIds = acc.2 ++ _ :: newIds
      simp [effStep]
    · rw [List.foldl_cons, hib]
      show (effStep acc t).1.edges = _
      simp [effStep, addNode_edges]
    · rw [List.foldl_cons]
      refine List.Forall₂.cons ?_ hic
      refine ⟨n0, ?_, hn0id, hn0key⟩
      rw [hl]
      refine List.mem_append_left l ?_
      show n0 ∈ (effStep acc t).1.nodes
      simpa [effStep] using hn0mem

theorem bioInner_edges (eid : String) (bioIds : List String) : ∀ s : St,
    (bioIds.foldl (fun s2 bid => addEdge s2 eid bid "INVOLVES") s).edges =
      s.edges ++ bioIds.map (fun bid => Edge.mk eid bid "INVOLVES") := by
  induction bioIds with
  | nil => intro s; simp
  | cons b rest ih =>
    intro s
    rw [List.foldl_cons, ih]
    simp [addEdge]

theorem effInner_edges (eid : String) (effIds : List String) : ∀ s : St,
    (effIds.foldl (fun s2 fid => addEdge s2 eid fid "OBSERVES") s).edges =
      s.edges ++ effIds.map (fun fid => Edge.mk eid fid "OBSERVES") := by
  induction effIds with
  | nil => intro s; simp
  | cons b rest ih =>
    intro s
    rw [List.foldl_cons, ih]
    simp [addEdge]

theorem crossEdges_edges (bioIds effIds : List String) : ∀ (expIds : List String) (st : St),
    (crossEdges st expIds bioIds effIds).edges =
      st.edges ++ expIds.flatMap (fun eid =>
        bioIds.map (fun bid => Edge.mk eid bid "INVOLVES") ++
        effIds.map (fun fid => Edge.mk eid fid "OBSERVES")) := by
  intro expIds
  induction expIds with
  | nil => intro st; simp [crossEdges]
  | cons e rest ih =>
    intro st
    have hrest := ih (effIds.foldl (fun s2 fid => addEdge s2 e fid "OBSERVES")
      (bioIds.foldl (fun s2 bid => addEdge s2 e bid "INVOLVES") st))
    unfold crossEdges at hrest ⊢
    rw [List.foldl_cons, hrest, effInner_edges, bioInner_edges, List.flatMap_cons]
    simp [List.append_assoc]

/-- Complete characterisation of the edges and term nodes contributed by
one document (shared helper; see `per_document_edges`). -/
theorem processDoc_spec (enum : List String → List String)
    (nlp : Option (String → List Ent)) (st : St) (idx : Nat) (item : Doc)
    (hinv : Inv st) :
    (processDoc enum nlp st idx item).edges =
      st.edges
      ++ (peOf enum nlp st idx item).2.map
           (fun i => Edge.mk (raOf st idx item).1 i "DESCRIBES")
      ++ (ppOf enum nlp st idx item).2.map
           (fun i => Edge.mk i (raOf st idx item).1 "FUNDS")
      ++ (peOf enum nlp st idx item).2.flatMap (fun eid =>
           (pbOf enum nlp st idx item).2.map (fun bid => Edge.mk eid bid "INVOLVES") ++
           (pfOf enum nlp st idx item).2.map (fun fid => Edge.mk eid fid "OBSERVES")) ∧
    List.Forall₂ (fun t i => ∃ n, n ∈ (processDoc enum nlp st idx item).nodes ∧
        n.id = i ∧ nodeKey n = ("Experiment", normalizeLabel t))
      (sortedSet enum (docCands nlp item).experiment) (peOf enum nlp st idx item).2 ∧
    List.Forall₂ (fun t i => ∃ n, n ∈ (processDoc enum nlp st idx item).nodes ∧
        n.id = i ∧ nodeKey n = ("Biological System", normalizeLabel t))
      (sortedSet enum (docCands nlp item).bioSystem) (pbOf enum nlp st idx item).2 ∧
    List.Forall₂ (fun t i => ∃ n, n ∈ (processDoc enum nlp st idx item).nodes ∧
        n.id = i ∧ nodeKey n = ("Effect", normalizeLabel t))
      (sortedSet enum (docCands nlp item).effect) (pfOf enum nlp st idx item).2 ∧
    List.Forall₂ (fun t i => ∃ n, n ∈ (processDoc enum nlp st idx item).nodes ∧
        n.id = i ∧ nodeKey n = ("Project", normalizeLabel t))
      (sortedSet enum (docCands nlp item).project) (ppOf enum nlp st idx item).2 := by
  have hnil : ∀ x : String, x ∈ ([] : List String) → x ∈ ([] : List String) :=
    fun x hx => hx
  have hra : AccOk (raOf st idx item).1 ((raOf st idx item).2, []) :=
    ⟨raOf_inv st idx item hinv, raOf_mem st idx item hinv,
     fun x hx => absurd hx (List.not_mem_nil x)⟩
  obtain ⟨eIds, he1, he2, he3⟩ := expFold_spec (raOf st idx item).1
    (sortedSet enum (docCands nlp item).experiment) ((raOf st idx item).2, []) hra
  have hpeOk : AccOk (raOf st idx item).1 (peOf enum nlp st idx item) :=
    peOf_ok enum nlp st idx item hinv
  obtain ⟨bIds, hb1, hb2, hb3⟩ := bioFold_spec (raOf st idx item).1
    (sortedSet enum (docCands nlp item).bioSystem) ((peOf enum nlp st idx item).1, [])
    ⟨hpeOk.1, hpeOk.2.1, fun x hx => absurd hx (List.not_mem_nil x)⟩
  have hpbOk : AccOk (raOf st idx item).1 (pbOf enum nlp st idx item) :=
    pbOf_ok enum nlp st idx item hinv
  obtain ⟨fIds, hf1, hf2, hf3⟩ := effFold_spec (raOf st idx item).1
    (sortedSet enum (docCands nlp item).effect) ((pbOf enum nlp st idx item).1, [])
    ⟨hpbOk.1, hpbOk.2.1, fun x hx => absurd hx (List.not_mem_nil x)⟩
  have hpfOk : AccOk (raOf st idx item).1 (pfOf enum nlp st idx item) :=
    pfOf_ok enum nlp st idx item hinv
  obtain ⟨pIds, hp1, hp2, hp3⟩ := projFold_spec (raOf st idx item).1
    (sortedSet enum (docCands nlp item).project) ((pfOf enum nlp st idx item).1, [])
    ⟨hpfOk.1, hpfOk.2.1, fun x hx => absurd hx (List.not_mem_nil x)⟩
  have hpe2 : (peOf enum nlp st idx item).2 = eIds := by simpa using he1
  have hpb2 : (pbOf enum nlp st idx item).2 = bIds := by simpa using hb1
  have hpf2 : (pfOf enum nlp st idx item).2 = fIds := by simpa using hf1
  have hpp2 : (ppOf enum nlp st idx item).2 = pIds := by simpa using hp1
  have hraE : (raOf st idx item).2.edges = st.edges :=
    addNode_edges st "Article" (articleLabelOf idx item)
  have hpeE : (peOf enum nlp st idx item).1.edges =
      st.edges ++ eIds.map (fun i => Edge.mk (raOf st idx item).1 i "DESCRIBES") := by
    have h2 : (peOf enum nlp st idx item).1.edges =
        (raOf st idx item).2.edges ++ eIds.map
          (fun i => Edge.mk (raOf st idx item).1 i "DESCRIBES") := he2
    rw [h2, hraE]
  have hpbE : (pbOf enum nlp st idx item).1.edges = (peOf enum nlp st idx item).1.edges := hb2
  have hpfE : (pfOf enum nlp st idx item).1.edges = (pbOf enum nlp st idx item).1.edges := hf2
  have hppE : (ppOf enum nlp st idx item).1.edges =
      (pfOf enum nlp st idx item).1.edges ++ pIds.map
        (fun i => Edge.mk i (raOf st idx item).1 "FUNDS") := hp2
  obtain ⟨l2, hl2⟩ := pbOf_nodes enum nlp st idx item
  obtain ⟨l3, hl3⟩ := pfOf_nodes enum nlp st idx item
  obtain ⟨l4, hl4⟩ := ppOf_nodes enum nlp st idx item
  have hcn : (processDoc enum nlp st idx item).nodes =
      (ppOf enum nlp st idx item).1.nodes :=
    crossEdges_nodes (ppOf enum nlp st idx item).1 (peOf enum nlp st idx item).2
      (pbOf enum nlp st idx item).2 (pfOf enum nlp st idx item).2
  refine ⟨?_, ?_, ?_, ?_, ?_⟩
  · have hcross := crossEdges_edges (pbOf enum nlp st idx item).2
      (pfOf enum nlp st idx item).2 (peOf enum nlp st idx item).2
      (ppOf enum nlp st idx item).1
    show (crossEdges (ppOf enum nlp st idx item).1 (peOf enum nlp st idx item).2
      (pbOf enum nlp st idx item).2 (pfOf enum nlp st idx item).2).edges = _
    rw [hcross, hppE, hpfE, hpbE, hpeE, hpe2, hpb2, hpf2, hpp2]
  · rw [hpe2]
    have hmono : (processDoc enum nlp st idx item).nodes =
        (peOf enum nlp st idx item).1.nodes ++ (l2 ++ l3 ++ l4) := by
      rw [hcn, hl4, hl3, hl2]
      simp [List.append_assoc]
    exact forall2_imp_nodes (l2 ++ l3 ++ l4) hmono "Experiment" he3
  · rw [hpb2]
    have hmono : (processDoc enum nlp st idx item).nodes =
        (pbOf enum nlp st idx item).1.nodes ++ (l3 ++ l4) := by
      rw [hcn, hl4, hl3]
      simp [List.append_assoc]
    exact forall2_imp_nodes (l3 ++ l4) hmono "Biological System" hb3
  · rw [hpf2]
    have hmono : (processDoc enum nlp st idx item).nodes =
        (pfOf enum nlp st idx item).1.nodes ++ l4 := by
      rw [hcn, hl4]
    exact forall2_imp_nodes l4 hmono "Effect" hf3
  · rw [hpp2]
    have hmono : (processDoc enum nlp st idx item).nodes =
        (ppOf enum nlp st idx item).1.nodes ++ [] := by
      rw [hcn]
      simp
    exact forall2_imp_nodes [] hmono "Project" hp3

/-- C5: the edges contributed by one document are exactly: one DESCRIBES
edge from the article node to the node of each merged Experiment term, one
FUNDS edge from the node of each merged Project term to the article node,
and the full cross product of INVOLVES (experiment → biological system) and
OBSERVES (experiment → effect) edges over the document's merged candidate
sets; biological-system and effect nodes get no direct edge to the article.
The Forall₂ clauses tie each sorted merged term to the id of its node. -/
theorem per_document_edges (enum : List String → List String)
    (nlp : Option (String → List Ent)) (st : St) (idx : Nat) (item : Doc)
    (hinv : Inv st) :
    (processDoc enum nlp st idx item).edges =
      st.edges
      ++ (peOf enum nlp st idx item).2.map
           (fun i => Edge.mk (raOf st idx item).1 i "DESCRIBES")
      ++ (ppOf enum nlp st idx item).2.map
           (fun i => Edge.mk i (raOf st idx item).1 "FUNDS")
      ++ (peOf enum nlp st idx item).2.flatMap (fun eid =>
           (pbOf enum nlp st idx item).2.map (fun bid => Edge.mk eid bid "INVOLVES") ++
           (pfOf enum nlp st idx item).2.map (fun fid => Edge.mk eid fid "OBSERVES")) ∧
    List.Forall₂ (fun t i => ∃ n, n ∈ (processDoc enum nlp st idx item).nodes ∧
        n.id = i ∧ nodeKey n = ("Experiment", normalizeLabel t))
      (sortedSet enum (docCands nlp item).experiment) (peOf enum nlp st idx item).2 ∧
    List.Forall₂ (fun t i => ∃ n, n ∈ (processDoc enum nlp st idx item).nodes ∧
        n.id = i ∧ nodeKey n = ("Biological System", normalizeLabel t))
      (sortedSet enum (docCands nlp item).bioSystem) (pbOf enum nlp st idx item).2 ∧
    List.Forall₂ (fun t i => ∃ n, n ∈ (processDoc enum nlp st idx item).nodes ∧
        n.id = i ∧ nodeKey n = ("Effect", normalizeLabel t))
      (sortedSet enum (docCands nlp item).effect) (pfOf enum nlp st idx item).2 ∧
    List.Forall₂ (fun t i => ∃ n, n ∈ (processDoc enum nlp st idx item).nodes ∧
        n.id = i ∧ nodeKey n = ("Project", normalizeLabel t))
      (sortedSet enum (docCands nlp item).project) (ppOf enum nlp st idx item).2 :=
  processDoc_spec enum nlp st idx item hinv

theorem per_document_edges_witness :
    Inv initSt ∧
    ((processDoc (fun l => l.dedup) none initSt 1 exDoc).edges =
      initSt.edges
      ++ (peOf (fun l => l.dedup) none initSt 1 exDoc).2.map
           (fun i => Edge.mk (raOf initSt 1 exDoc).1 i "DESCRIBES")
      ++ (ppOf (fun l => l.dedup) none initSt 1 exDoc).2.map
           (fun i => Edge.mk i (raOf initSt 1 exDoc).1 "FUNDS")
      ++ (peOf (fun l => l.dedup) none initSt 1 exDoc).2.flatMap (fun eid =>
           (pbOf (fun l => l.dedup) none initSt 1 exDoc).2.map
             (fun bid => Edge.mk eid bid "INVOLVES") ++
           (pfOf (fun l => l.dedup) none initSt 1 exDoc).2.map
             (fun fid => Edge.mk eid fid "OBSERVES")) ∧
    List.Forall₂ (fun t i => ∃ n, n ∈ (processDoc (fun l => l.dedup) none initSt 1 exDoc).nodes ∧
        n.id = i ∧ nodeKey n = ("Experiment", normalizeLabel t))
      (sortedSet (fun l => l.dedup) (docCands none exDoc).experiment)
      (peOf (fun l => l.dedup) none initSt 1 exDoc).2 ∧
    List.Forall₂ (fun t i => ∃ n, n ∈ (processDoc (fun l => l.dedup) none initSt 1 exDoc).nodes ∧
        n.id = i ∧ nodeKey n = ("Biological System", normalizeLabel t))
      (sortedSet (fun l => l.dedup) (docCands none exDoc).bioSystem)
      (pbOf (fun l => l.dedup) none initSt 1 exDoc).2 ∧
    List.Forall₂ (fun t i => ∃ n, n ∈ (processDoc (fun l => l.dedup) none initSt 1 exDoc).nodes ∧
        n.id = i ∧ nodeKey n = ("Effect", normalizeLabel t))
      (sortedSet (fun l => l.dedup) (docCands none exDoc).effect)
      (pfOf (fun l => l.dedup) none initSt 1 exDoc).2 ∧
    List.Forall₂ (fun t i => ∃ n, n ∈ (processDoc (fun l => l.dedup) none initSt 1 exDoc).nodes ∧
        n.id = i ∧ nodeKey n = ("Project", normalizeLabel t))
      (sortedSet (fun l => l.dedup) (docCands none exDoc).project)
      (ppOf (fun l => l.dedup) none initSt 1 exDoc).2) :=
  ⟨initSt_inv, per_document_edges (fun l => l.dedup) none initSt 1 exDoc initSt_inv⟩

theorem keyOfId_eq (st : St) (hinv : Inv st) (n : Node) (hn : n ∈ st.nodes) :
    keyOfId st.nodes n.id = some (nodeKey n) := by
  unfold keyOfId
  cases hfind : st.nodes.find? (fun m => m.id == n.id) with
  | none =>
    exfalso
    have := List.find?_eq_none.mp hfind n hn
    simp at this
  | some m =>
    have hmem := List.mem_of_find?_eq_some hfind
    have hpred := List.find?_some hfind
    have hid : m.id = n.id := by simpa using hpred
    have hmn : m = n := List.inj_on_of_nodup_map (inv_ids_nodup st hinv) hmem hn hid
    rw [hmn]
    rfl

theorem addNode_keys (st : St) (t lab : String) (hinv : Inv st) (k : String × String) :
    k ∈ (addNode st t lab).2.nodes.map nodeKey ↔
      (k ∈ st.nodes.map nodeKey ∨ k = (t, lab)) := by
  cases h : lookupIndex st.nodeIndex (t, lab) with
  | some id0 =>
    rw [addNode_hit st t lab id0 h]
    constructor
    · exact Or.inl
    · rintro (hk | rfl)
      · exact hk
      · obtain ⟨n, hn, hkey, _⟩ := hinv.indexSound (t, lab) id0 h
        exact hkey ▸ List.mem_map_of_mem nodeKey hn
  | none =>
    rw [addNode_miss st t lab h]
    simp only [List.map_append, List.mem_append]
    constructor
    · rintro (hk | hk)
      · exact Or.inl hk
      · right
        simpa [freshNode, nodeKey] using hk
    · rintro (hk | rfl)
      · exact Or.inl hk
      · right
        simp [freshNode, nodeKey]

theorem foldSteps_keys (aId T : String) (step : St × List String → String → St × List String)
    (hkeys : ∀ acc x, Inv acc.1 → ∀ k : String × String,
      (k ∈ (step acc x).1.nodes.map nodeKey ↔
        (k ∈ acc.1.nodes.map nodeKey ∨ k = (T, normalizeLabel x))))
    (hok : ∀ acc x, AccOk aId acc → AccOk aId (step acc x)) :
    ∀ (terms : List String) (acc : St × List String), AccOk aId acc →
      ∀ k : String × String, k ∈ (terms.foldl step acc).1.nodes.map nodeKey ↔
        (k ∈ acc.1.nodes.map nodeKey ∨ ∃ t ∈ terms, k = (T, normalizeLabel t)) := by
  intro terms
  induction terms with
  | nil => intro acc hacc k; simp
  | cons t rest ih =>
    intro acc hacc k
    rw [List.foldl_cons, ih (step acc t) (hok acc t hacc) k, hkeys acc t hacc.1 k]
    constructor
    · rintro ((hk | rfl) | ⟨u, hu, rfl⟩)
      · exact Or.inl hk
      · exact Or.inr ⟨t, List.mem_cons_self t rest, rfl⟩
      · exact Or.inr ⟨u, List.mem_cons_of_mem t hu, rfl⟩
    · rintro (hk | ⟨u, hu, rfl⟩)
      · exact Or.inl (Or.inl hk)
      · rcases List.mem_cons.mp hu with rfl | hu
        · exact Or.inl (Or.inr rfl)
        · exact Or.inr ⟨u, hu, rfl⟩

theorem mem_sortedSet (l : List String) (x : String) :
    x ∈ sortedSet (fun l2 => l2.dedup) l ↔ x ∈ l := by
  unfold sortedSet
  rw [List.mem_insertionSort]
  exact List.mem_dedup

theorem processDoc_node_keys (nlp : Option (String → List Ent)) (st : St) (idx : Nat)
    (item : Doc) (hinv : Inv st) (k : String × String) :
    k ∈ (processDoc (fun l => l.dedup) nlp st idx item).nodes.map nodeKey ↔
      (k ∈ st.nodes.map nodeKey ∨ k ∈ docNodeKeys nlp idx item) := by
  have hra : AccOk (raOf st idx item).1 ((raOf st idx item).2, []) :=
    ⟨raOf_inv st idx item hinv, raOf_mem st idx item hinv,
     fun x hx => absurd hx (List.not_mem_nil x)⟩
  have hpeOk := peOf_ok (fun l => l.dedup) nlp st idx item hinv
  have hpbOk := pbOf_ok (fun l => l.dedup) nlp st idx item hinv
  have hpfOk := pfOf_ok (fun l => l.dedup) nlp st idx item hinv
  have h1 : ∀ k2 : String × String,
      k2 ∈ (peOf (fun l => l.dedup) nlp st idx item).1.nodes.map nodeKey ↔
        (k2 ∈ (raOf st idx item).2.nodes.map nodeKey ∨
         ∃ t ∈ sortedSet (fun l => l.dedup) (docCands nlp item).experiment,
           k2 = ("Experiment", normalizeLabel t)) :=
    fun k2 => foldSteps_keys (raOf st idx item).1 "Experiment" (expStep (raOf st idx item).1)
      (fun acc x hi k3 => addNode_keys acc.1 "Experiment" (normalizeLabel x) hi k3)
      (expStep_ok (raOf st idx item).1)
      (sortedSet (fun l => l.dedup) (docCands nlp item).experiment)
      ((raOf st idx item).2, []) hra k2
  have h2 : ∀ k2 : String × String,
      k2 ∈ (pbOf (fun l => l.dedup) nlp st idx item).1.nodes.map nodeKey ↔
        (k2 ∈ (peOf (fun l => l.dedup) nlp st idx item).1.nodes.map nodeKey ∨
         ∃ t ∈ sortedSet (fun l => l.dedup) (docCands nlp item).bioSystem,
           k2 = ("Biological System", normalizeLabel t)) :=
    fun k2 => foldSteps_keys (raOf st idx item).1 "Biological System" bioStep
      (fun acc x hi k3 => addNode_keys acc.1 "Biological System" (normalizeLabel x) hi k3)
      (bioStep_ok (raOf st idx item).1)
      (sortedSet (fun l => l.dedup) (docCands nlp item).bioSystem)
      ((peOf (fun l => l.dedup) nlp st idx item).1, [])
      ⟨hpeOk.1, hpeOk.2.1, fun x hx => absurd hx (List.not_mem_nil x)⟩ k2
  have h3 : ∀ k2 : String × String,
      k2 ∈ (pfOf (fun l => l.dedup) nlp st idx item).1.nodes.map nodeKey ↔
        (k2 ∈ (pbOf (fun l => l.dedup) nlp st idx item).1.nodes.map nodeKey ∨
         ∃ t ∈ sortedSet (fun l => l.dedup) (docCands nlp item).effect,
           k2 = ("Effect", normalizeLabel t)) :=
    fun k2 => foldSteps_keys (raOf st idx item).1 "Effect" effStep
      (fun acc x hi k3 => addNode_keys acc.1 "Effect" (normalizeLabel x) hi k3)
      (effStep_ok (raOf st idx item).1)
      (sortedSet (fun l => l.dedup) (docCands nlp item).effect)
      ((pbOf (fun l => l.dedup) nlp st idx item).1, [])
      ⟨hpbOk.1, hpbOk.2.1, fun x hx => absurd hx (List.not_mem_nil x)⟩ k2
  have h4 : ∀ k2 : String × String,
      k2 ∈ (ppOf (fun l => l.dedup) nlp st idx item).1.nodes.map nodeKey ↔
        (k2 ∈ (pfOf (fun l => l.dedup) nlp st idx item).1.nodes.map nodeKey ∨
         ∃ t ∈ sortedSet (fun l => l.dedup) (docCands nlp item).project,
           k2 = ("Project", normalizeLabel t)) :=
    fun k2 => foldSteps_keys (raOf st idx item).1 "Project" (projStep (raOf st idx item).1)
      (fun acc x hi k3 => addNode_keys acc.1 "Project" (normalizeLabel x) hi k3)
      (projStep_ok (raOf st idx item).1)
      (sortedSet (fun l => l.dedup) (docCands nlp item).project)
      ((pfOf (fun l => l.dedup) nlp st idx item).1, [])
      ⟨hpfOk.1, hpfOk.2.1, fun x hx => absurd hx (List.not_mem_nil x)⟩ k2
  have ha : ∀ k2 : String × String,
      k2 ∈ (raOf st idx item).2.nodes.map nodeKey ↔
        (k2 ∈ st.nodes.map nodeKey ∨ k2 = ("Article", articleLabelOf idx item)) :=
    fun k2 => addNode_keys st "Article" (articleLabelOf idx item) hinv k2
  have hnodes : (processDoc (fun l => l.dedup) nlp st idx item).nodes =
      (ppOf (fun l => l.dedup) nlp st idx item).1.nodes :=
    crossEdges_nodes _ _ _ _
  rw [hnodes, h4 k, h3 k, h2 k, h1 k, ha k]
  simp only [mem_sortedSet, docNodeKeys, List.mem_cons, List.mem_append, List.mem_map]
  constructor
  · rintro (((((hk | rfl) | ⟨t, ht, rfl⟩) | ⟨t, ht, rfl⟩) | ⟨t, ht, rfl⟩) | ⟨t, ht, rfl⟩)
    · exact Or.inl hk
    · exact Or.inr (Or.inl rfl)
    · exact Or.inr (Or.inr (Or.inl (Or.inl (Or.inl ⟨t, ht, rfl⟩))))
    · exact Or.inr (Or.inr (Or.inl (Or.inl (Or.inr ⟨t, ht, rfl⟩))))
    · exact Or.inr (Or.inr (Or.inl (Or.inr ⟨t, ht, rfl⟩)))
    · exact Or.inr (Or.inr (Or.inr ⟨t, ht, rfl⟩))
  · rintro (hk | rfl | (((⟨t, ht, rfl⟩ | ⟨t, ht, rfl⟩) | ⟨t, ht, rfl⟩) | ⟨t, ht, rfl⟩))
    · exact Or.inl (Or.inl (Or.inl (Or.inl (Or.inl hk))))
    · exact Or.inl (Or.inl (Or.inl (Or.inl (Or.inr rfl))))
    · exact Or.inl (Or.inl (Or.inl (Or.inr ⟨t, ht, rfl⟩)))
    · exact Or.inl (Or.inl (Or.inr ⟨t, ht, rfl⟩))
    · exact Or.inl (Or.inr ⟨t, ht, rfl⟩)
    · exact Or.inr ⟨t, ht, rfl⟩

theorem buildLoop_node_keys (nlp : Option (String → List Ent)) :
    ∀ (docs : List Doc) (start : St) (idx0 : Nat), Inv start →
    ∀ k : String × String,
      k ∈ ((docs.foldl (buildStep (fun l => l.dedup) nlp) (start, idx0)).1.nodes.map nodeKey) ↔
      (k ∈ start.nodes.map nodeKey ∨
        ∃ j, ∃ hj : j < docs.length, k ∈ docNodeKeys nlp (idx0 + j) docs[j]) := by
  intro docs
  induction docs with
  | nil => intro start idx0 h k; simp
  | cons d rest ih =>
    intro start idx0 hstart k
    rw [List.foldl_cons]
    have hstep : buildStep (fun l => l.dedup) nlp (start, idx0) d =
        (processDoc (fun l => l.dedup) nlp start idx0 d, idx0 + 1) := rfl
    rw [hstep]
    rw [ih (processDoc (fun l => l.dedup) nlp start idx0 d) (idx0 + 1)
      (processDoc_inv (fun l => l.dedup) nlp start idx0 d hstart) k]
    rw [processDoc_node_keys nlp start idx0 d hstart k]
    constructor
    · rintro ((hk | hk) | ⟨j, hj, hk⟩)
      · exact Or.inl hk
      · exact Or.inr ⟨0, by simp, by simpa using hk⟩
      · refine Or.inr ⟨j + 1, by simpa using hj, ?_⟩
        have he : idx0 + (j + 1) = idx0 + 1 + j := by omega
        rw [he, List.getElem_cons_succ]
        exact hk
    · rintro (hk | ⟨j, hj, hk⟩)
      · exact Or.inl (Or.inl hk)
      · cases j with
        | zero =>
          left
          right
          simpa using hk
        | succ j =>
          right
          refine ⟨j, by simpa using hj, ?_⟩
          have he : idx0 + 1 + j = idx0 + (j + 1) := by omega
          rw [he]
          simpa using hk

theorem build_node_keys (nlp : Option (String → List Ent)) (items : List Doc)
    (k : String × String) :
    k ∈ (buildState (fun l => l.dedup) nlp items).nodes.map nodeKey ↔
      ∃ j, ∃ hj : j < items.length, k ∈ docNodeKeys nlp (1 + j) items[j] := by
  have h := buildLoop_node_keys nlp items initSt 1 initSt_inv k
  show k ∈ ((items.foldl (buildStep (fun l => l.dedup) nlp) (initSt, 1)).1.nodes.map nodeKey) ↔ _
  rw [h]
  simp [initSt]

theorem docCands_mono (f : String → List Ent) (item : Doc) :
    (∀ t ∈ (docCands none item).experiment, t ∈ (docCands (some f) item).experiment) ∧
    (∀ t ∈ (docCands none item).project, t ∈ (docCands (some f) item).project) ∧
    (∀ t ∈ (docCands none item).bioSystem, t ∈ (docCands (some f) item).bioSystem) ∧
    (∀ t ∈ (docCands none item).effect, t ∈ (docCands (some f) item).effect) := by
  refine ⟨?_, ?_, ?_, ?_⟩ <;>
    · intro t h
      simp only [docCands, mergeBuckets, extractWithNlp, emptyBuckets] at h ⊢
      rw [List.append_nil] at h
      exact List.mem_append_left _ h

theorem docNodeKeys_mono (f : String → List Ent) (idx : Nat) (item : Doc)
    (k : String × String) (h : k ∈ docNodeKeys none idx item) :
    k ∈ docNodeKeys (some f) idx item := by
  obtain ⟨hexp, hproj, hbio, heff⟩ := docCands_mono f item
  simp only [docNodeKeys, List.mem_cons, List.mem_append, List.mem_map] at h ⊢
  rcases h with rfl | (((⟨t, ht, rfl⟩ | ⟨t, ht, rfl⟩) | ⟨t, ht, rfl⟩) | ⟨t, ht, rfl⟩)
  · exact Or.inl rfl
  · exact Or.inr (Or.inl (Or.inl (Or.inl ⟨t, hexp t ht, rfl⟩)))
  · exact Or.inr (Or.inl (Or.inl (Or.inr ⟨t, hbio t ht, rfl⟩)))
  · exact Or.inr (Or.inl (Or.inr ⟨t, heff t ht, rfl⟩))
  · exact Or.inr (Or.inr ⟨t, hproj t ht, rfl⟩)

theorem processDoc_edge_keys (nlp : Option (String → List Ent)) (st : St) (idx : Nat)
    (item : Doc) (hinv : Inv st) (F : St) (hinvF : Inv F)
    (hFm : ∃ l, F.nodes = (processDoc (fun l => l.dedup) nlp st idx item).nodes ++ l) :
    ∃ newEdges, (processDoc (fun l => l.dedup) nlp st idx item).edges = st.edges ++ newEdges ∧
      ∀ K, K ∈ newEdges.map (edgeKeyOf F.nodes) ↔ K ∈ docEdgeKeys nlp idx item := by
  obtain ⟨hedges, hFexp, hFbio, hFeff, hFproj⟩ :=
    processDoc_spec (fun l => l.dedup) nlp st idx item hinv
  obtain ⟨lF, hlF⟩ := hFm
  have hmemF : ∀ n : Node, n ∈ (processDoc (fun l => l.dedup) nlp st idx item).nodes →
      n ∈ F.nodes := by
    intro n hn
    rw [hlF]
    exact List.mem_append_left lF hn
  obtain ⟨nA, hnAmem, hnAid, hnAkey⟩ :=
    addNode_id_mem st "Article" (articleLabelOf idx item) hinv
  have hchain : ∃ l, (processDoc (fun l => l.dedup) nlp st idx item).nodes =
      (raOf st idx item).2.nodes ++ l := by
    obtain ⟨l1, hl1⟩ := peOf_nodes (fun l => l.dedup) nlp st idx item
    obtain ⟨l2, hl2⟩ := pbOf_nodes (fun l => l.dedup) nlp st idx item
    obtain ⟨l3, hl3⟩ := pfOf_nodes (fun l => l.dedup) nlp st idx item
    obtain ⟨l4, hl4⟩ := ppOf_nodes (fun l => l.dedup) nlp st idx item
    refine ⟨l1 ++ l2 ++ l3 ++ l4, ?_⟩
    have hcn : (processDoc (fun l => l.dedup) nlp st idx item).nodes =
        (ppOf (fun l => l.dedup) nlp st idx item).1.nodes :=
      crossEdges_nodes _ _ _ _
    rw [hcn, hl4, hl3, hl2, hl1]
    simp [List.append_assoc]
  have hnAF : nA ∈ F.nodes := by
    obtain ⟨l, hl⟩ := hchain
    exact hmemF nA (by rw [hl]; exact List.mem_append_left l hnAmem)
  have haK : keyOfId F.nodes (raOf st idx item).1 =
      some ("Article", articleLabelOf idx item) := by
    have hnAid2 : nA.id = (raOf st idx item).1 := hnAid
    rw [← hnAid2, keyOfId_eq F hinvF nA hnAF, hnAkey]
  have hEx : ∀ i ∈ (peOf (fun l => l.dedup) nlp st idx item).2,
      ∃ t ∈ (docCands nlp item).experiment,
        keyOfId F.nodes i = some ("Experiment", normalizeLabel t) := by
    intro i hi
    obtain ⟨t, ht, n, hn, hid, hkey⟩ := forall2_mem_right hFexp i hi
    refine ⟨t, (mem_sortedSet _ t).mp ht, ?_⟩
    rw [← hid, keyOfId_eq F hinvF n (hmemF n hn), hkey]
  have hEx2 : ∀ t ∈ (docCands nlp item).experiment,
      ∃ i ∈ (peOf (fun l => l.dedup) nlp st idx item).2,
        keyOfId F.nodes i = some ("Experiment", normalizeLabel t) := by
    intro t ht
    obtain ⟨i, hi, n, hn, hid, hkey⟩ := forall2_mem_left hFexp t ((mem_sortedSet _ t).mpr ht)
    refine ⟨i, hi, ?_⟩
    rw [← hid, keyOfId_eq F hinvF n (hmemF n hn), hkey]
  have hBi : ∀ i ∈ (pbOf (fun l => l.dedup) nlp st idx item).2,
      ∃ t ∈ (docCands nlp item).bioSystem,
        keyOfId F.nodes i = some ("Biological System", normalizeLabel t) := by
    intro i hi
    obtain ⟨t, ht, n, hn, hid, hkey⟩ := forall2_mem_right hFbio i hi
    refine ⟨t, (mem_sortedSet _ t).mp ht, ?_⟩
    rw [← hid, keyOfId_eq F hinvF n (hmemF n hn), hkey]
  have hBi2 : ∀ t ∈ (docCands nlp item).bioSystem,
      ∃ i ∈ (pbOf (fun l => l.dedup) nlp st idx item).2,
        keyOfId F.nodes i = some ("Biological System", normalizeLabel t) := by
    intro t ht
    obtain ⟨i, hi, n, hn, hid, hkey⟩ := forall2_mem_left hFbio t ((mem_sortedSet _ t).mpr ht)
    refine ⟨i, hi, ?_⟩
    rw [← hid, keyOfId_eq F hinvF n (hmemF n hn), hkey]
  have hEf : ∀ i ∈ (pfOf (fun l => l.dedup) nlp st idx item).2,
      ∃ t ∈ (docCands nlp item).effect,
        keyOfId F.nodes i = some ("Effect", normalizeLabel t) := by
    intro i hi
    obtain ⟨t, ht, n, hn, hid, hkey⟩ := forall2_mem_right hFeff i hi
    refine ⟨t, (mem_sortedSet _ t).mp ht, ?_⟩
    rw [← hid, keyOfId_eq F hinvF n (hmemF n hn), hkey]
  have hEf2 : ∀ t ∈ (docCands nlp item).effect,
      ∃ i ∈ (pfOf (fun l => l.dedup) nlp st idx item).2,
        keyOfId F.nodes i = some ("Effect", normalizeLabel t) := by
    intro t ht
    obtain ⟨i, hi, n, hn, hid, hkey⟩ := forall2_mem_left hFeff t ((mem_sortedSet _ t).mpr ht)
    refine ⟨i, hi, ?_⟩
    rw [← hid, keyOfId_eq F hinvF n (hmemF n hn), hkey]
  have hPr : ∀ i ∈ (ppOf (fun l => l.dedup) nlp st idx item).2,
      ∃ t ∈ (docCands nlp item).project,
        keyOfId F.nodes i = some ("Project", normalizeLabel t) := by
    intro i hi
    obtain ⟨t, ht, n, hn, hid, hkey⟩ := forall2_mem_right hFproj i hi
    refine ⟨t, (mem_sortedSet _ t).mp ht, ?_⟩
    rw [← hid, keyOfId_eq F hinvF n (hmemF n hn), hkey]
  have hPr2 : ∀ t ∈ (docCands nlp item).project,
      ∃ i ∈ (ppOf (fun l => l.dedup) nlp st idx item).2,
        keyOfId F.nodes i = some ("Project", normalizeLabel t) := by
    intro t ht
    obtain ⟨i, hi, n, hn, hid, hkey⟩ := forall2_mem_left hFproj t ((mem_sortedSet _ t).mpr ht)
    refine ⟨i, hi, ?_⟩
    rw [← hid, keyOfId_eq F hinvF n (hmemF n hn), hkey]
  refine ⟨(peOf (fun l => l.dedup) nlp st idx item).2.map
      (fun i => Edge.mk (raOf st idx item).1 i "DESCRIBES")
    ++ (ppOf (fun l => l.dedup) nlp st idx item).2.map
      (fun i => Edge.mk i (raOf st idx item).1 "FUNDS")
    ++ (peOf (fun l => l.dedup) nlp st idx item).2.flatMap (fun eid =>
        (pbOf (fun l => l.dedup) nlp st idx item).2.map
          (fun bid => Edge.mk eid bid "INVOLVES") ++
        (pfOf (fun l => l.dedup) nlp st idx item).2.map
          (fun fid => Edge.mk eid fid "OBSERVES")), ?_, ?_⟩
  · rw [hedges]
    simp [List.append_assoc]
  · intro K
    simp only [List.map_append, List.mem_append, docEdgeKeys, List.map_map, List.map_flatMap]
    constructor
    · rintro ((hK | hK) | hK)
      · refine Or.inl (Or.inl ?_)
        obtain ⟨i, hi, hKeq⟩ := List.mem_map.mp hK
        obtain ⟨t, ht, hkt⟩ := hEx i hi
        refine List.mem_map.mpr ⟨t, ht, ?_⟩
        rw [← hKeq]
        simp [edgeKeyOf, Function.comp, haK, hkt]
      · refine Or.inl (Or.inr ?_)
        obtain ⟨i, hi, hKeq⟩ := List.mem_map.mp hK
        obtain ⟨t, ht, hkt⟩ := hPr i hi
        refine List.mem_map.mpr ⟨t, ht, ?_⟩
        rw [← hKeq]
        simp [edgeKeyOf, Function.comp, haK, hkt]
      · refine Or.inr ?_
        obtain ⟨eid, heid, hKin⟩ := List.mem_flatMap.mp hK
        obtain ⟨te, hte, hkte⟩ := hEx eid heid
        simp only [List.map_append, List.mem_append] at hKin
        rcases hKin with hKin | hKin
        · obtain ⟨bid, hbid, hKeq⟩ := List.mem_map.mp hKin
          obtain ⟨tb, htb, hktb⟩ := hBi bid hbid
          refine List.mem_flatMap.mpr ⟨te, hte, List.mem_append.mpr (Or.inl ?_)⟩
          refine List.mem_map.mpr ⟨tb, htb, ?_⟩
          rw [← hKeq]
          simp [edgeKeyOf, Function.comp, hkte, hktb]
        · obtain ⟨fid, hfid, hKeq⟩ := List.mem_map.mp hKin
          obtain ⟨tf, htf, hktf⟩ := hEf fid hfid
          refine List.mem_flatMap.mpr ⟨te, hte, List.mem_append.mpr (Or.inr ?_)⟩
          refine List.mem_map.mpr ⟨tf, htf, ?_⟩
          rw [← hKeq]
          simp [edgeKeyOf, Function.comp, hkte, hktf]
    · rintro ((hK | hK) | hK)
      · refine Or.inl (Or.inl ?_)
        obtain ⟨t, ht, hKeq⟩ := List.mem_map.mp hK
        obtain ⟨i, hi, hkt⟩ := hEx2 t ht
        refine List.mem_map.mpr ⟨i, hi, ?_⟩
        rw [← hKeq]
        simp [edgeKeyOf, Function.comp, haK, hkt]
      · refine Or.inl (Or.inr ?_)
        obtain ⟨t, ht, hKeq⟩ := List.mem_map.mp hK
        obtain ⟨i, hi, hkt⟩ := hPr2 t ht
        refine List.mem_map.mpr ⟨i, hi, ?_⟩
        rw [← hKeq]
        simp [edgeKeyOf, Function.comp, haK, hkt]
      · refine Or.inr ?_
        obtain ⟨te, hte, hKin⟩ := List.mem_flatMap.mp hK
        obtain ⟨eid, heid, hkte⟩ := hEx2 te hte
        rcases List.mem_append.mp hKin with hKin | hKin
        · obtain ⟨tb, htb, hKeq⟩ := List.mem_map.mp hKin
          obtain ⟨bid, hbid, hktb⟩ := hBi2 tb htb
          refine List.mem_flatMap.mpr ⟨eid, heid, ?_⟩
          simp only [List.map_append, List.mem_append]
          refine Or.inl ?_
          refine List.mem_map.mpr ⟨bid, hbid, ?_⟩
          rw [← hKeq]
          simp [edgeKeyOf, Function.comp, hkte, hktb]
        · obtain ⟨tf, htf, hKeq⟩ := List.mem_map.mp hKin
          obtain ⟨fid, hfid, hktf⟩ := hEf2 tf htf
          refine List.mem_flatMap.mpr ⟨eid, heid, ?_⟩
          simp only [List.map_append, List.mem_append]
          refine Or.inr ?_
          refine List.mem_map.mpr ⟨fid, hfid, ?_⟩
          rw [← hKeq]
          simp [edgeKeyOf, Function.comp, hkte, hktf]

theorem buildLoop_nodes_mono (nlp : Option (String → List Ent)) :
    ∀ (docs : List Doc) (start : St) (idx0 : Nat),
    ∃ l, ((docs.foldl (buildStep (fun l => l.dedup) nlp) (start, idx0)).1).nodes =
      start.nodes ++ l := by
  intro docs
  induction docs with
  | nil => intro start idx0; exact ⟨[], by simp⟩
  | cons d rest ih =>
    intro start idx0
    obtain ⟨l1, hl1⟩ := processDoc_nodes (fun l => l.dedup) nlp start idx0 d
    obtain ⟨l2, hl2⟩ := ih (processDoc (fun l => l.dedup) nlp start idx0 d) (idx0 + 1)
    refine ⟨l1 ++ l2, ?_⟩
    have hstep : buildStep (fun l => l.dedup) nlp (start, idx0) d =
        (processDoc (fun l => l.dedup) nlp start idx0 d, idx0 + 1) := rfl
    rw [List.foldl_cons, hstep, hl2, hl1, List.append_assoc]

theorem buildLoop_edge_keys (nlp : Option (String → List Ent)) :
    ∀ (docs : List Doc) (start : St) (idx0 : Nat) (F : St),
    Inv start → Inv F →
    (∃ l, F.nodes =
      ((docs.foldl (buildStep (fun l => l.dedup) nlp) (start, idx0)).1).nodes ++ l) →
    ∃ newEdges,
      ((docs.foldl (buildStep (fun l => l.dedup) nlp) (start, idx0)).1).edges =
        start.edges ++ newEdges ∧
      ∀ K, K ∈ newEdges.map (edgeKeyOf F.nodes) ↔
        ∃ j, ∃ hj : j < docs.length, K ∈ docEdgeKeys nlp (idx0 + j) docs[j] := by
  intro docs
  induction docs with
  | nil =>
    intro start idx0 F h1 h2 h3
    exact ⟨[], by simp, by intro K; simp⟩
  | cons d rest ih =>
    intro start idx0 F hstart hF hFm
    have hstep : buildStep (fun l => l.dedup) nlp (start, idx0) d =
        (processDoc (fun l => l.dedup) nlp start idx0 d, idx0 + 1) := rfl
    have hFm1 : ∃ l, F.nodes = (processDoc (fun l => l.dedup) nlp start idx0 d).nodes ++ l := by
      obtain ⟨l0, hl0⟩ := hFm
      obtain ⟨l1, hl1⟩ := buildLoop_nodes_mono nlp rest
        (processDoc (fun l => l.dedup) nlp start idx0 d) (idx0 + 1)
      refine ⟨l1 ++ l0, ?_⟩
      rw [List.foldl_cons, hstep] at hl0
      rw [hl0, hl1, List.append_assoc]
    obtain ⟨newE1, hE1, hK1⟩ := processDoc_edge_keys nlp start idx0 d hstart F hF hFm1
    obtain ⟨newE2, hE2, hK2⟩ := ih (processDoc (fun l => l.dedup) nlp start idx0 d) (idx0 + 1) F
      (processDoc_inv (fun l => l.dedup) nlp start idx0 d hstart) hF
      (by
        obtain ⟨l0, hl0⟩ := hFm
        rw [List.foldl_cons, hstep] at hl0
        exact ⟨l0, hl0⟩)
    refine ⟨newE1 ++ newE2, ?_, ?_⟩
    · rw [List.foldl_cons, hstep, hE2, hE1, List.append_assoc]
    · intro K
      rw [List.map_append, List.mem_append, hK1 K, hK2 K]
      constructor
      · rintro (hk | ⟨j, hj, hk⟩)
        · exact ⟨0, by simp, by simpa using hk⟩
        · refine ⟨j + 1, by simpa using hj, ?_⟩
          have he : idx0 + (j + 1) = idx0 + 1 + j := by omega
          rw [he, List.getElem_cons_succ]
          exact hk
      · rintro ⟨j, hj, hk⟩
        cases j with
        | zero => exact Or.inl (by simpa using hk)
        | succ j =>
          refine Or.inr ⟨j, by simpa using hj, ?_⟩
          have he : idx0 + 1 + j = idx0 + (j + 1) := by omega
          rw [he]
          simpa using hk

theorem build_edge_keys (nlp : Option (String → List Ent)) (items : List Doc)
    (K : Option (String × String) × Option (String × String) × String) :
    K ∈ (buildState (fun l => l.dedup) nlp items).edges.map
        (edgeKeyOf (buildState (fun l => l.dedup) nlp items).nodes) ↔
      ∃ j, ∃ hj : j < items.length, K ∈ docEdgeKeys nlp (1 + j) items[j] := by
  obtain ⟨newE, hE, hK⟩ := buildLoop_edge_keys nlp items initSt 1
    (buildState (fun l => l.dedup) nlp items) initSt_inv
    (buildState_inv (fun l => l.dedup) nlp items) ⟨[], by simp [buildState]⟩
  have hE2 : (buildState (fun l => l.dedup) nlp items).edges = newE := by
    have h2 : (buildState (fun l => l.dedup) nlp items).edges = initSt.edges ++ newE := hE
    simpa [initSt] using h2
  rw [hE2]
  exact hK K

theorem docEdgeKeys_mono (f : String → List Ent) (idx : Nat) (item : Doc)
    (K : Option (String × String) × Option (String × String) × String)
    (h : K ∈ docEdgeKeys none idx item) : K ∈ docEdgeKeys (some f) idx item := by
  obtain ⟨hexp, hproj, hbio, heff⟩ := docCands_mono f item
  simp only [docEdgeKeys, List.mem_append, List.mem_map, List.mem_flatMap] at h ⊢
  rcases h with ((⟨t, ht, rfl⟩ | ⟨t, ht, rfl⟩) |
    ⟨t, ht, (⟨b, hb, rfl⟩ | ⟨e2, he2, rfl⟩)⟩)
  · exact Or.inl (Or.inl ⟨t, hexp t ht, rfl⟩)
  · exact Or.inl (Or.inr ⟨t, hproj t ht, rfl⟩)
  · exact Or.inr ⟨t, hexp t ht, Or.inl ⟨b, hbio b hb, rfl⟩⟩
  · exact Or.inr ⟨t, hexp t ht, Or.inr ⟨e2, heff e2 he2, rfl⟩⟩

/-- C8 counterexample: with a model available, the extra candidate
"Apollo mission" shifts the sorted order and the global id counter, so the
heuristic-only build's node `experiment_2` (label "experiment") and its edge
`experiment_2 → biological_system_3` do not appear in the enriched build at
all: the raw node/edge sets are not subsets. -/
theorem graceful_degradation_cex :
    (⟨"experiment_2", "Experiment", "experiment"⟩ : Node) ∈ (buildGraph none [exDoc2]).1 ∧
    (⟨"experiment_2", "Experiment", "experiment"⟩ : Node) ∉ (buildGraph (some exNlp) [exDoc2]).1 ∧
    (⟨"experiment_2", "biological_system_3", "INVOLVES"⟩ : Edge) ∈ (buildGraph none [exDoc2]).2 ∧
    (⟨"experiment_2", "biological_system_3", "INVOLVES"⟩ : Edge) ∉ (buildGraph (some exNlp) [exDoc2]).2 := by
  exact ⟨by decide, by decide, by decide, by decide⟩

/-- C8 amended: heuristic-only extraction under-produces but never
contradicts combined extraction once node identity is taken at the
`(type, label)` level: every `(type, label)` node key of the model-free
build is a node key of the enriched build, and every edge of the model-free
build — with its endpoint ids resolved to `(type, label)` node keys — is an
edge of the enriched build under the same resolution.  (The raw id-carrying
records are not subsets, because extra candidates shift the global id
counter; see the counterexample.) -/
theorem graceful_degradation (f : String → List Ent) (items : List Doc) :
    (∀ k ∈ (buildGraph none items).1.map nodeKey,
       k ∈ (buildGraph (some f) items).1.map nodeKey) ∧
    (∀ K ∈ (buildGraph none items).2.map (edgeKeyOf (buildGraph none items).1),
       K ∈ (buildGraph (some f) items).2.map (edgeKeyOf (buildGraph (some f) items).1)) := by
  constructor
  · intro k hk
    obtain ⟨j, hj, hkj⟩ := (build_node_keys none items k).mp hk
    exact (build_node_keys (some f) items k).mpr
      ⟨j, hj, docNodeKeys_mono f (1 + j) items[j] k hkj⟩
  · intro K hK
    obtain ⟨j, hj, hKj⟩ := (build_edge_keys none items K).mp hK
    exact (build_edge_keys (some f) items K).mpr
      ⟨j, hj, docEdgeKeys_mono f (1 + j) items[j] K hKj⟩

theorem graceful_degradation_witness :
    (("Experiment", "experiment") ∈ (buildGraph none [exDoc2]).1.map nodeKey ∧
     ("Experiment", "experiment") ∈ (buildGraph (some exNlp) [exDoc2]).1.map nodeKey) ∧
    ((some ("Experiment", "experiment"), some ("Biological System", "cell"), "INVOLVES") ∈
       (buildGraph none [exDoc2]).2.map (edgeKeyOf (buildGraph none [exDoc2]).1) ∧
     (some ("Experiment", "experiment"), some ("Biological System", "cell"), "INVOLVES") ∈
       (buildGraph (some exNlp) [exDoc2]).2.map (edgeKeyOf (buildGraph (some exNlp) [exDoc2]).1)) :=
  ⟨⟨by decide, (graceful_degradation exNlp [exDoc2]).1 ("Experiment", "experiment") (by decide)⟩,
   ⟨by decide, (graceful_degradation exNlp [exDoc2]).2
     (some ("Experiment", "experiment"), some ("Biological System", "cell"), "INVOLVES")
     (by decide)⟩⟩

end KG
